import Mathlib

/-!
Verification development for the github_miner collection pipeline
(src/github_miner/miner.py).

Embedding conventions:
* Python dictionaries that the code builds key by key are modelled as
  association lists in insertion order (Python dicts preserve insertion
  order).
* File contents are modelled as List Char; the empty list stands for an
  absent or empty file, matching the code's single check
  os.path.exists(f) and os.path.getsize(f) > 0.
* GithubException raised by a remote query is modelled as Except Unit:
  .error () is a raised query, .ok v a successful one.
* Naive datetimes are modelled by an integer timestamp together with the
  strftime day key and the hour that the code extracts from them.
* JSON texts produced by json.dump are modelled by the Json type below with
  a serializer and a whitespace-tolerant parser; indent-2 pretty printing
  only inserts whitespace, which the parser skips, so values are
  serialized compactly here.
-/

namespace GithubMiner

/-! ### JSON values

A small JSON universe: the user records written by the sink are nested
dictionaries, lists, strings, integers, booleans and nulls. -/

inductive Json where
  | null : Json
  | bool (b : Bool) : Json
  | num (n : Int) : Json
  | str (s : List Char) : Json
  | arr (xs : List Json) : Json
  | obj (kvs : List (List Char × Json)) : Json

/-! ### Decimal rendering of numbers and its inverse -/

def natRender (n : Nat) : List Char :=
  if n = 0 then ['0'] else ((Nat.digits 10 n).map Nat.digitChar).reverse

def intRender (n : Int) : List Char :=
  if n < 0 then '-' :: natRender n.natAbs else natRender n.toNat

def charVal (c : Char) : Nat := c.toNat - 48

def digitsVal (ds : List Char) : Nat := ds.foldl (fun a c => 10 * a + charVal c) 0

theorem digitsVal_append_one (l : List Char) (c : Char) :
    digitsVal (l ++ [c]) = 10 * digitsVal l + charVal c := by
  simp [digitsVal, List.foldl_append]

theorem charVal_digitChar {d : Nat} (h : d < 10) : charVal (Nat.digitChar d) = d := by
  interval_cases d <;> decide

theorem isDigit_digitChar {d : Nat} (h : d < 10) : (Nat.digitChar d).isDigit = true := by
  interval_cases d <;> decide

theorem digitsVal_digits (m : Nat) :
    digitsVal (((Nat.digits 10 m).map Nat.digitChar).reverse) = m := by
  induction m using Nat.strong_induction_on with
  | _ m ih =>
    rcases Nat.eq_zero_or_pos m with h0 | h0
    · subst h0; simp [digitsVal]
    · rw [Nat.digits_def' (by norm_num : 1 < 10) h0]
      have hdiv : m / 10 < m := Nat.div_lt_self h0 (by norm_num)
      have := ih (m / 10) hdiv
      simp only [List.map_cons, List.reverse_cons]
      rw [digitsVal_append_one, this, charVal_digitChar (Nat.mod_lt m (by norm_num))]
      exact Nat.div_add_mod m 10

theorem digitsVal_natRender (n : Nat) : digitsVal (natRender n) = n := by
  by_cases h0 : n = 0
  · subst h0; decide
  · rw [natRender, if_neg h0]; exact digitsVal_digits n

theorem natRender_digits (n : Nat) : ∀ c ∈ natRender n, c.isDigit = true := by
  intro c hc
  by_cases h0 : n = 0
  · subst h0; simp [natRender] at hc; subst hc; decide
  · rw [natRender, if_neg h0] at hc
    rw [List.mem_reverse, List.mem_map] at hc
    obtain ⟨d, hd, rfl⟩ := hc
    exact isDigit_digitChar (Nat.digits_lt_base (by norm_num) hd)

theorem natRender_ne_nil (n : Nat) : natRender n ≠ [] := by
  by_cases h0 : n = 0
  · subst h0; simp [natRender]
  · rw [natRender, if_neg h0]
    simp only [ne_eq, List.reverse_eq_nil_iff, List.map_eq_nil_iff]
    exact Nat.digits_ne_nil_iff_ne_zero.mpr h0

/-! ### Scanning a run of digits -/

def takeDigits : List Char → List Char × List Char
  | [] => ([], [])
  | c :: rest =>
    if c.isDigit then
      ((c :: (takeDigits rest).1), (takeDigits rest).2)
    else ([], c :: rest)

def noDigitStart : List Char → Bool
  | [] => true
  | c :: _ => !c.isDigit

theorem takeDigits_spec (ds rest : List Char)
    (hds : ∀ c ∈ ds, c.isDigit = true) (hr : noDigitStart rest = true) :
    takeDigits (ds ++ rest) = (ds, rest) := by
  induction ds with
  | nil =>
    cases rest with
    | nil => rfl
    | cons c r =>
      simp only [noDigitStart, Bool.not_eq_true'] at hr
      simp [takeDigits, hr]
  | cons c ds ih =>
    have hc : c.isDigit = true := hds c (List.mem_cons_self c ds)
    have ih2 := ih (fun x hx => hds x (List.mem_cons_of_mem c hx))
    simp [takeDigits, hc, ih2]

/-! ### Parsing one decimal integer -/

def parseNum : List Char → Option (Int × List Char)
  | [] => none
  | c :: rest =>
    if c = '-' then
      if (takeDigits rest).1.isEmpty then none
      else some (-((digitsVal (takeDigits rest).1 : Nat) : Int), (takeDigits rest).2)
    else
      if (takeDigits (c :: rest)).1.isEmpty then none
      else some (((digitsVal (takeDigits (c :: rest)).1 : Nat) : Int), (takeDigits (c :: rest)).2)

theorem parseNum_natRender (n : Nat) (rest : List Char) (hr : noDigitStart rest = true) :
    parseNum (natRender n ++ rest) = some ((n : Int), rest) := by
  obtain ⟨c, cs, hcons⟩ : ∃ c cs, natRender n = c :: cs := by
    cases h : natRender n with
    | nil => exact absurd h (natRender_ne_nil n)
    | cons c cs => exact ⟨c, cs, rfl⟩
  have hdigs := natRender_digits n
  have hcd : c.isDigit = true := hdigs c (by rw [hcons]; exact List.mem_cons_self c cs)
  have hcne : ¬(c = '-') := by
    intro hc; rw [hc] at hcd; exact absurd hcd (by decide)
  have htd : takeDigits (natRender n ++ rest) = (natRender n, rest) :=
    takeDigits_spec _ _ hdigs hr
  rw [hcons] at htd
  simp only [List.cons_append] at htd
  rw [hcons]
  simp only [List.cons_append, parseNum, if_neg hcne, htd]
  have hval : digitsVal (c :: cs) = n := by
    rw [← hcons, digitsVal_natRender]
  simp [hval]

theorem parseNum_intRender (n : Int) (rest : List Char) (hr : noDigitStart rest = true) :
    parseNum (intRender n ++ rest) = some (n, rest) := by
  by_cases hneg : n < 0
  · rw [intRender, if_pos hneg]
    have hrest := takeDigits_spec (natRender n.natAbs) rest (natRender_digits _) hr
    have hne : (natRender n.natAbs).isEmpty = false := by
      cases h : natRender n.natAbs with
      | nil => exact absurd h (natRender_ne_nil _)
      | cons c cs => rfl
    show parseNum ('-' :: (natRender n.natAbs ++ rest)) = some (n, rest)
    simp only [parseNum, if_pos rfl, hrest]
    have habs : -((n.natAbs : Nat) : Int) = n := by omega
    rw [hne]
    simp only [Bool.false_eq_true, if_false, digitsVal_natRender, habs, if_true]
  · rw [intRender, if_neg hneg]
    rw [parseNum_natRender n.toNat rest hr]
    have htn : ((n.toNat : Nat) : Int) = n := by omega
    rw [htn]

/-! ### Serializer

Compact serialization of a Json value; strings escape the quote and the
backslash, which is the least escaping that keeps rendering injective and
parseable.  json.dump additionally escapes control characters and inserts
indent-2 whitespace; both are invisible to the whitespace-tolerant parser
below. -/

def escapeChar (c : Char) : List Char :=
  if c = '"' ∨ c = '\\' then ['\\', c] else [c]

def escapeList (s : List Char) : List Char :=
  s.foldr (fun c acc => escapeChar c ++ acc) []

mutual

def serialize : Json → List Char
  | .null => "null".toList
  | .bool true => "true".toList
  | .bool false => "false".toList
  | .num n => intRender n
  | .str s => '"' :: (escapeList s ++ ['"'])
  | .arr xs => '[' :: (serializeItems xs ++ [']'])
  | .obj kvs => '{' :: (serializeFields kvs ++ ['}'])

def serializeItems : List Json → List Char
  | [] => []
  | [x] => serialize x
  | x :: y :: ys => serialize x ++ ',' :: serializeItems (y :: ys)

def serializeFields : List (List Char × Json) → List Char
  | [] => []
  | [(k, v)] => '"' :: (escapeList k ++ ['"', ':'] ++ serialize v)
  | (k, v) :: y :: ys =>
      ('"' :: (escapeList k ++ ['"', ':'] ++ serialize v)) ++ ',' :: serializeFields (y :: ys)

end

/-! ### Whitespace-tolerant parser, with fuel for nesting depth -/

def isWs (c : Char) : Bool := c = ' ' || c = '\n' || c = '\t' || c = '\r'

def skipWs (l : List Char) : List Char := l.dropWhile isWs

def parseStringBody : List Char → Option (List Char × List Char)
  | [] => none
  | c :: rest =>
    if c = '\\' then
      match rest with
      | [] => none
      | e :: rest2 =>
        match parseStringBody rest2 with
        | none => none
        | some p => some (e :: p.1, p.2)
    else if c = '"' then some ([], rest)
    else
      match parseStringBody rest with
      | none => none
      | some p => some (c :: p.1, p.2)

mutual

def parseVal : Nat → List Char → Option (Json × List Char)
  | 0, _ => none
  | fuel + 1, input =>
    match skipWs input with
    | [] => none
    | c :: rest =>
      if c = '"' then
        match parseStringBody rest with
        | none => none
        | some p => some (.str p.1, p.2)
      else if c = 'n' then
        if rest.take 3 = ['u', 'l', 'l'] then some (.null, rest.drop 3) else none
      else if c = 't' then
        if rest.take 3 = ['r', 'u', 'e'] then some (.bool true, rest.drop 3) else none
      else if c = 'f' then
        if rest.take 4 = ['a', 'l', 's', 'e'] then some (.bool false, rest.drop 4) else none
      else if c = '[' then
        match skipWs rest with
        | [] => none
        | d :: r =>
          if d = ']' then some (.arr [], r)
          else
            match parseItems fuel (d :: r) with
            | none => none
            | some p => some (.arr p.1, p.2)
      else if c = '{' then
        match skipWs rest with
        | [] => none
        | d :: r =>
          if d = '}' then some (.obj [], r)
          else
            match parseFields fuel (d :: r) with
            | none => none
            | some p => some (.obj p.1, p.2)
      else
        match parseNum (c :: rest) with
        | none => none
        | some p => some (.num p.1, p.2)

def parseItems : Nat → List Char → Option (List Json × List Char)
  | 0, _ => none
  | fuel + 1, input =>
    match parseVal fuel input with
    | none => none
    | some p =>
      match skipWs p.2 with
      | [] => none
      | d :: r =>
        if d = ',' then
          match parseItems fuel r with
          | none => none
          | some q => some (p.1 :: q.1, q.2)
        else if d = ']' then some ([p.1], r)
        else none

def parseFields : Nat → List Char → Option (List (List Char × Json) × List Char)
  | 0, _ => none
  | fuel + 1, input =>
    match skipWs input with
    | [] => none
    | c :: rest =>
      if c = '"' then
        match parseStringBody rest with
        | none => none
        | some pk =>
          match skipWs pk.2 with
          | [] => none
          | d :: r =>
            if d = ':' then
              match parseVal fuel r with
              | none => none
              | some pv =>
                match skipWs pv.2 with
                | [] => none
                | e :: r2 =>
                  if e = ',' then
                    match parseFields fuel r2 with
                    | none => none
                    | some q => some ((pk.1, pv.1) :: q.1, q.2)
                  else if e = '}' then some ([(pk.1, pv.1)], r2)
                  else none
            else none
      else none

end

/-! ### A size measure bounding the fuel the parser needs -/

mutual

def jsize : Json → Nat
  | .null => 1
  | .bool _ => 1
  | .num _ => 1
  | .str _ => 1
  | .arr xs => 1 + lsize xs
  | .obj kvs => 1 + fsize kvs

def lsize : List Json → Nat
  | [] => 0
  | x :: xs => 1 + jsize x + lsize xs

def fsize : List (List Char × Json) → Nat
  | [] => 0
  | (_, v) :: xs => 1 + jsize v + fsize xs

end

theorem jsize_pos (j : Json) : 1 ≤ jsize j := by
  cases j <;> simp [jsize]

/-! ### Roundtrip: the parser inverts the serializer -/

theorem escapeList_cons (c : Char) (cs : List Char) :
    escapeList (c :: cs) = escapeChar c ++ escapeList cs := rfl

theorem parseStringBody_rt (s rest : List Char) :
    parseStringBody (escapeList s ++ '"' :: rest) = some (s, rest) := by
  induction s with
  | nil =>
    show parseStringBody ('"' :: rest) = some ([], rest)
    rw [parseStringBody.eq_def]; simp
  | cons c cs ih =>
    by_cases hesc : c = '"' ∨ c = '\\'
    · simp only [escapeList_cons, escapeChar, if_pos hesc, List.cons_append, List.nil_append]
      rw [parseStringBody.eq_def]
      simp [ih]
    · have h1 : ¬(c = '\\') := fun hc => hesc (Or.inr hc)
      have h2 : ¬(c = '"') := fun hc => hesc (Or.inl hc)
      simp only [escapeList_cons, escapeChar, if_neg hesc, List.cons_append, List.nil_append]
      rw [parseStringBody.eq_def]
      simp [h1, h2, ih]

theorem skipWs_cons (l : List Char) {c : Char} (h : isWs c = false) :
    skipWs (c :: l) = c :: l := by
  simp [skipWs, List.dropWhile, h]

def startChar (c : Char) : Bool :=
  c = '"' || c = 'n' || c = 't' || c = 'f' || c = '[' || c = '{' || c = '-' || c.isDigit

theorem isDigit_ne_one {c d : Char} (h : c.isDigit = true) (hd : d.isDigit = false) :
    ¬(c = d) := by
  intro he; rw [he, hd] at h; exact Bool.false_ne_true h

theorem isDigit_not_ws {c : Char} (h : c.isDigit = true) : isWs c = false := by
  by_contra hw
  rw [Bool.not_eq_false] at hw
  simp only [isWs, Bool.or_eq_true, decide_eq_true_eq] at hw
  rcases hw with ((rfl | rfl) | rfl) | rfl <;> exact absurd h (by decide)

theorem startChar_not_ws {c : Char} (h : startChar c = true) : isWs c = false := by
  simp only [startChar, Bool.or_eq_true, decide_eq_true_eq] at h
  rcases h with ((((((rfl | rfl) | rfl) | rfl) | rfl) | rfl) | rfl) | hd
  · decide
  · decide
  · decide
  · decide
  · decide
  · decide
  · decide
  · exact isDigit_not_ws hd

theorem startChar_ne {c : Char} (h : startChar c = true) :
    ¬(c = ']') ∧ ¬(c = ',') ∧ ¬(c = '}') ∧ ¬(c = ':') := by
  simp only [startChar, Bool.or_eq_true, decide_eq_true_eq] at h
  rcases h with ((((((rfl | rfl) | rfl) | rfl) | rfl) | rfl) | rfl) | hd
  · exact ⟨by decide, by decide, by decide, by decide⟩
  · exact ⟨by decide, by decide, by decide, by decide⟩
  · exact ⟨by decide, by decide, by decide, by decide⟩
  · exact ⟨by decide, by decide, by decide, by decide⟩
  · exact ⟨by decide, by decide, by decide, by decide⟩
  · exact ⟨by decide, by decide, by decide, by decide⟩
  · exact ⟨by decide, by decide, by decide, by decide⟩
  · exact ⟨isDigit_ne_one hd (by decide), isDigit_ne_one hd (by decide),
      isDigit_ne_one hd (by decide), isDigit_ne_one hd (by decide)⟩

theorem serialize_head (j : Json) :
    ∃ c cs, serialize j = c :: cs ∧ startChar c = true := by
  cases j with
  | null => exact ⟨'n', _, rfl, by decide⟩
  | bool b =>
    cases b with
    | false => exact ⟨'f', _, rfl, by decide⟩
    | true => exact ⟨'t', _, rfl, by decide⟩
  | num n =>
    by_cases hneg : n < 0
    · refine ⟨'-', natRender n.natAbs, ?_, by decide⟩
      show intRender n = _
      rw [intRender, if_pos hneg]
    · obtain ⟨c, cs, hcons⟩ : ∃ c cs, natRender n.toNat = c :: cs := by
        cases h : natRender n.toNat with
        | nil => exact absurd h (natRender_ne_nil _)
        | cons c cs => exact ⟨c, cs, rfl⟩
      have hc : c.isDigit = true :=
        natRender_digits _ c (by rw [hcons]; exact List.mem_cons_self c cs)
      refine ⟨c, cs, ?_, ?_⟩
      · show intRender n = _
        rw [intRender, if_neg hneg, hcons]
      · simp [startChar, hc]
  | str s => exact ⟨'"', _, rfl, by decide⟩
  | arr xs => exact ⟨'[', _, rfl, by decide⟩
  | obj kvs => exact ⟨'{', _, rfl, by decide⟩

theorem serializeItems_head (x : Json) (xs : List Json) :
    ∃ c cs, serializeItems (x :: xs) = c :: cs ∧ startChar c = true := by
  obtain ⟨c, cs, hcons, hstart⟩ := serialize_head x
  cases xs with
  | nil => exact ⟨c, cs, by simp [serializeItems, hcons], hstart⟩
  | cons y ys =>
    refine ⟨c, cs ++ ',' :: serializeItems (y :: ys), ?_, hstart⟩
    show serialize x ++ ',' :: serializeItems (y :: ys) = _
    rw [hcons]; rfl

theorem serializeFields_head (kv : List Char × Json) (kvs : List (List Char × Json)) :
    ∃ cs, serializeFields (kv :: kvs) = '"' :: cs := by
  obtain ⟨k, v⟩ := kv
  cases kvs with
  | nil => exact ⟨_, rfl⟩
  | cons y ys => exact ⟨_, rfl⟩

def numSafe : Json → List Char → Bool
  | .num _, rest => noDigitStart rest
  | _, _ => true

theorem numSafe_cons {j : Json} {c : Char} (hc : c.isDigit = false) (l : List Char) :
    numSafe j (c :: l) = true := by
  cases j <;> simp [numSafe, noDigitStart, hc]


theorem intRender_head (n : Int) :
    ∃ c cs, intRender n = c :: cs ∧ (c = '-' ∨ c.isDigit = true) := by
  by_cases hneg : n < 0
  · exact ⟨'-', _, by rw [intRender, if_pos hneg], Or.inl rfl⟩
  · obtain ⟨c, cs, hcons⟩ : ∃ c cs, natRender n.toNat = c :: cs := by
      cases h : natRender n.toNat with
      | nil => exact absurd h (natRender_ne_nil _)
      | cons c cs => exact ⟨c, cs, rfl⟩
    refine ⟨c, cs, by rw [intRender, if_neg hneg, hcons], Or.inr ?_⟩
    exact natRender_digits _ c (by rw [hcons]; exact List.mem_cons_self c cs)

mutual

theorem parseVal_rt : ∀ (fuel : Nat) (j : Json) (rest : List Char),
    jsize j ≤ fuel → numSafe j rest = true →
    parseVal fuel (serialize j ++ rest) = some (j, rest)
  | 0, j, _, h, _ => absurd (le_trans (jsize_pos j) h) (by decide)
  | fuel + 1, .null, rest, _, _ => by
    show parseVal (fuel + 1) (serialize .null ++ rest) = some (.null, rest)
    simp [serialize, parseVal, skipWs, List.dropWhile, isWs]
  | fuel + 1, .bool true, rest, _, _ => by
    show parseVal (fuel + 1) (serialize (.bool true) ++ rest) = some (.bool true, rest)
    simp [serialize, parseVal, skipWs, List.dropWhile, isWs]
  | fuel + 1, .bool false, rest, _, _ => by
    show parseVal (fuel + 1) (serialize (.bool false) ++ rest) = some (.bool false, rest)
    simp [serialize, parseVal, skipWs, List.dropWhile, isWs]
  | fuel + 1, .num n, rest, _, hsafe => by
    have hnds : noDigitStart rest = true := by simpa [numSafe] using hsafe
    obtain ⟨c, cs, hcons, hc⟩ := intRender_head n
    have hcsc : startChar c = true := by
      rcases hc with rfl | hd
      · decide
      · simp [startChar, hd]
    have hskip : skipWs (intRender n ++ rest) = c :: (cs ++ rest) := by
      rw [hcons, List.cons_append, skipWs_cons _ (startChar_not_ws hcsc)]
    have hpn : parseNum (c :: (cs ++ rest)) = some (n, rest) := by
      rw [← List.cons_append, ← hcons]
      exact parseNum_intRender n rest hnds
    have h1 : ¬(c = '"') := by
      rcases hc with rfl | hd
      · decide
      · exact isDigit_ne_one hd (by decide)
    have h2 : ¬(c = 'n') := by
      rcases hc with rfl | hd
      · decide
      · exact isDigit_ne_one hd (by decide)
    have h3 : ¬(c = 't') := by
      rcases hc with rfl | hd
      · decide
      · exact isDigit_ne_one hd (by decide)
    have h4 : ¬(c = 'f') := by
      rcases hc with rfl | hd
      · decide
      · exact isDigit_ne_one hd (by decide)
    have h5 : ¬(c = '[') := by
      rcases hc with rfl | hd
      · decide
      · exact isDigit_ne_one hd (by decide)
    have h6 : ¬(c = '{') := by
      rcases hc with rfl | hd
      · decide
      · exact isDigit_ne_one hd (by decide)
    show parseVal (fuel + 1) (serialize (.num n) ++ rest) = some (.num n, rest)
    simp [serialize, parseVal, hskip, h1, h2, h3, h4, h5, h6, hpn]
  | fuel + 1, .str s, rest, _, _ => by
    have hsb := parseStringBody_rt s rest
    show parseVal (fuel + 1) (serialize (.str s) ++ rest) = some (.str s, rest)
    simp [serialize, parseVal, skipWs, List.dropWhile, isWs, List.append_assoc, hsb]
  | fuel + 1, .arr [], rest, _, _ => by
    show parseVal (fuel + 1) (serialize (.arr []) ++ rest) = some (.arr [], rest)
    simp [serialize, serializeItems, parseVal, skipWs, List.dropWhile, isWs]
  | fuel + 1, .arr (x :: xs), rest, hsz, _ => by
    obtain ⟨c0, cs0, hicons, histart⟩ := serializeItems_head x xs
    have hlsz : lsize (x :: xs) ≤ fuel := by
      have hj : jsize (Json.arr (x :: xs)) = 1 + lsize (x :: xs) := rfl
      omega
    have hitems := parseItems_rt fuel (x :: xs) rest (List.cons_ne_nil x xs) hlsz
    have hitems2 : parseItems fuel (c0 :: (cs0 ++ ']' :: rest)) = some (x :: xs, rest) := by
      rw [← List.cons_append, ← hicons]; exact hitems
    have hskip2 : List.dropWhile isWs (serializeItems (x :: xs) ++ ']' :: rest)
        = c0 :: (cs0 ++ ']' :: rest) := by
      rw [hicons, List.cons_append]
      exact skipWs_cons _ (startChar_not_ws histart)
    have hd1 : ¬(c0 = ']') := (startChar_ne histart).1
    show parseVal (fuel + 1) (serialize (.arr (x :: xs)) ++ rest) = some (.arr (x :: xs), rest)
    simp [serialize, parseVal, skipWs, List.dropWhile, isWs, List.append_assoc,
      hskip2, hd1, hitems2]
  | fuel + 1, .obj [], rest, _, _ => by
    show parseVal (fuel + 1) (serialize (.obj []) ++ rest) = some (.obj [], rest)
    simp [serialize, serializeFields, parseVal, skipWs, List.dropWhile, isWs]
  | fuel + 1, .obj (kv :: kvs), rest, hsz, _ => by
    obtain ⟨cs0, hfcons⟩ := serializeFields_head kv kvs
    have hfsz : fsize (kv :: kvs) ≤ fuel := by
      have hj : jsize (Json.obj (kv :: kvs)) = 1 + fsize (kv :: kvs) := rfl
      omega
    have hflds := parseFields_rt fuel (kv :: kvs) rest (List.cons_ne_nil kv kvs) hfsz
    have hflds2 : parseFields fuel ('"' :: (cs0 ++ '}' :: rest)) = some (kv :: kvs, rest) := by
      rw [← List.cons_append, ← hfcons]; exact hflds
    have hskip2 : List.dropWhile isWs (serializeFields (kv :: kvs) ++ '}' :: rest)
        = '"' :: (cs0 ++ '}' :: rest) := by
      rw [hfcons, List.cons_append]
      exact skipWs_cons _ (by decide)
    show parseVal (fuel + 1) (serialize (.obj (kv :: kvs)) ++ rest) = some (.obj (kv :: kvs), rest)
    simp [serialize, parseVal, skipWs, List.dropWhile, isWs, List.append_assoc,
      hskip2, hflds2]

theorem parseItems_rt : ∀ (fuel : Nat) (xs : List Json) (rest : List Char),
    xs ≠ [] → lsize xs ≤ fuel →
    parseItems fuel (serializeItems xs ++ ']' :: rest) = some (xs, rest)
  | _, [], _, hne, _ => absurd rfl hne
  | 0, x :: xs, _, _, hsz => by
    exfalso
    have h1 := jsize_pos x
    have h0 : lsize (x :: xs) = 1 + jsize x + lsize xs := rfl
    omega
  | fuel + 1, [x], rest, _, hsz => by
    have hjx : jsize x ≤ fuel := by
      have : lsize [x] = 1 + jsize x + 0 := rfl
      omega
    have hv := parseVal_rt fuel x (']' :: rest) hjx (numSafe_cons (by decide) _)
    show parseItems (fuel + 1) (serializeItems [x] ++ ']' :: rest) = some ([x], rest)
    simp only [serializeItems]
    simp [parseItems, hv, skipWs, List.dropWhile, isWs]
  | fuel + 1, x :: y :: ys, rest, _, hsz => by
    have hjx : jsize x ≤ fuel := by
      have : lsize (x :: y :: ys) = 1 + jsize x + lsize (y :: ys) := rfl
      omega
    have hly : lsize (y :: ys) ≤ fuel := by
      have h0 : lsize (x :: y :: ys) = 1 + jsize x + lsize (y :: ys) := rfl
      have h1 := jsize_pos x
      omega
    have hv := parseVal_rt fuel x (',' :: (serializeItems (y :: ys) ++ ']' :: rest)) hjx
      (numSafe_cons (by decide) _)
    have hrec := parseItems_rt fuel (y :: ys) rest (List.cons_ne_nil y ys) hly
    show parseItems (fuel + 1) (serializeItems (x :: y :: ys) ++ ']' :: rest)
        = some (x :: y :: ys, rest)
    simp only [serializeItems, List.append_assoc, List.cons_append]
    simp [parseItems, hv, hrec, skipWs, List.dropWhile, isWs]

theorem parseFields_rt : ∀ (fuel : Nat) (kvs : List (List Char × Json)) (rest : List Char),
    kvs ≠ [] → fsize kvs ≤ fuel →
    parseFields fuel (serializeFields kvs ++ '}' :: rest) = some (kvs, rest)
  | _, [], _, hne, _ => absurd rfl hne
  | 0, (k, v) :: kvs, _, _, hsz => by
    exfalso
    have h1 := jsize_pos v
    have h0 : fsize ((k, v) :: kvs) = 1 + jsize v + fsize kvs := rfl
    omega
  | fuel + 1, [(k, v)], rest, _, hsz => by
    have hjv : jsize v ≤ fuel := by
      have : fsize [(k, v)] = 1 + jsize v + 0 := rfl
      omega
    have hsb := parseStringBody_rt k (':' :: (serialize v ++ '}' :: rest))
    have hv := parseVal_rt fuel v ('}' :: rest) hjv (numSafe_cons (by decide) _)
    show parseFields (fuel + 1) (serializeFields [(k, v)] ++ '}' :: rest) = some ([(k, v)], rest)
    simp only [serializeFields, List.append_assoc, List.cons_append]
    simp [parseFields, skipWs, List.dropWhile, isWs, List.append_assoc, hsb, hv]
  | fuel + 1, (k, v) :: kv2 :: kvs, rest, _, hsz => by
    have hjv : jsize v ≤ fuel := by
      have : fsize ((k, v) :: kv2 :: kvs) = 1 + jsize v + fsize (kv2 :: kvs) := rfl
      omega
    have hfs : fsize (kv2 :: kvs) ≤ fuel := by
      have h0 : fsize ((k, v) :: kv2 :: kvs) = 1 + jsize v + fsize (kv2 :: kvs) := rfl
      have h1 := jsize_pos v
      omega
    have hsb := parseStringBody_rt k
      (':' :: (serialize v ++ ',' :: (serializeFields (kv2 :: kvs) ++ '}' :: rest)))
    have hv := parseVal_rt fuel v (',' :: (serializeFields (kv2 :: kvs) ++ '}' :: rest)) hjv
      (numSafe_cons (by decide) _)
    have hrec := parseFields_rt fuel (kv2 :: kvs) rest (List.cons_ne_nil kv2 kvs) hfs
    show parseFields (fuel + 1) (serializeFields ((k, v) :: kv2 :: kvs) ++ '}' :: rest)
        = some ((k, v) :: kv2 :: kvs, rest)
    simp only [serializeFields, List.append_assoc, List.cons_append]
    simp [parseFields, skipWs, List.dropWhile, isWs, List.append_assoc, hsb, hv, hrec]

end



/-! ### The JSON half of the streaming export sink

Model of AdvancedGitHubMiner._append_to_json_file (miner.py lines 861-907).
The file is a list of characters; the serialized record is passed in, as
json.dump receives the record.  The code checks os.path.exists and
os.path.getsize > 0 (here: length = 0), writes a fresh 2-space-indented
array on a fresh file, and otherwise seeks to size - 2, reads the tail,
and either overwrites from there (tail holds a closing bracket) or appends
defensively; when the existing size is not bigger than 2 it silently does
nothing. -/

def appendToJsonFile (file : List Char) (rec : List Char) : List Char :=
  if file.length = 0 then
    '[' :: '\n' :: (rec ++ '\n' :: [']'])
  else if file.length > 2 then
    if (file.drop (file.length - 2)).contains ']' then
      file.take (file.length - 2) ++ ',' :: '\n' :: (rec ++ '\n' :: [']'])
    else
      file ++ ',' :: '\n' :: (rec ++ '\n' :: [']'])
  else
    file

/-- The well-formed file contents that a run of appends produces: the
records joined by comma-newline, between bracket-newline fences. -/
def joinSep : List (List Char) → List Char
  | [] => []
  | [r] => r
  | r :: s :: rest => r ++ ',' :: '\n' :: joinSep (s :: rest)

def jsonArrayFile (recs : List (List Char)) : List Char :=
  '[' :: '\n' :: (joinSep recs ++ '\n' :: [']'])

def appendAll (recs : List (List Char)) : List Char :=
  recs.foldl appendToJsonFile []

theorem joinSep_append_one (recs : List (List Char)) (r : List Char) (h : recs ≠ []) :
    joinSep (recs ++ [r]) = joinSep recs ++ ',' :: '\n' :: r := by
  induction recs with
  | nil => exact absurd rfl h
  | cons a as ih =>
    cases as with
    | nil => rfl
    | cons b bs =>
      have h2 := ih (List.cons_ne_nil b bs)
      simp only [List.cons_append] at h2
      simp only [List.cons_append, joinSep, List.append_eq]
      rw [h2]
      simp

theorem appendToJsonFile_render (recs : List (List Char)) (r : List Char) (h : recs ≠ []) :
    appendToJsonFile (jsonArrayFile recs) r = jsonArrayFile (recs ++ [r]) := by
  have hsplit : jsonArrayFile recs
      = ('[' :: '\n' :: joinSep recs) ++ ['\n', ']'] := by
    simp [jsonArrayFile]
  have hlen : (jsonArrayFile recs).length = ('[' :: '\n' :: joinSep recs).length + 2 := by
    rw [hsplit]; simp
  have hlen2 : ('[' :: '\n' :: joinSep recs).length = (joinSep recs).length + 2 := by simp
  have hpos : (jsonArrayFile recs).length > 2 := by omega
  have hne0 : ¬((jsonArrayFile recs).length = 0) := by omega
  rw [appendToJsonFile, if_neg hne0, if_pos hpos]
  have hidx : (jsonArrayFile recs).length - 2 = ('[' :: '\n' :: joinSep recs).length := by omega
  rw [hidx, hsplit, List.drop_left, List.take_left]
  rw [if_pos (by decide)]
  rw [jsonArrayFile, joinSep_append_one recs r h]
  simp

theorem appendAll_render (recs : List (List Char)) (h : recs ≠ []) :
    appendAll recs = jsonArrayFile recs := by
  induction recs using List.reverseRecOn with
  | nil => exact absurd rfl h
  | append_singleton rs r ih =>
    cases rs with
    | nil => rfl
    | cons a as =>
      rw [appendAll, List.foldl_append]
      rw [show List.foldl appendToJsonFile [] (a :: as) = appendAll (a :: as) from rfl]
      rw [ih (List.cons_ne_nil a as), List.foldl_cons, List.foldl_nil]
      exact appendToJsonFile_render (a :: as) r (List.cons_ne_nil a as)



theorem skipWs_cons_ws {c : Char} (l : List Char) (h : isWs c = true) :
    skipWs (c :: l) = skipWs l := by
  simp [skipWs, List.dropWhile, h]

theorem parseVal_ws (fuel : Nat) {c : Char} (l : List Char) (h : isWs c = true) :
    parseVal fuel (c :: l) = parseVal fuel l := by
  cases fuel with
  | zero => rfl
  | succ f =>
    simp only [parseVal]
    rw [skipWs_cons_ws l h]

theorem parseItems_skip (fuel : Nat) {c : Char} (l : List Char) (h : isWs c = true) :
    parseItems fuel (c :: l) = parseItems fuel l := by
  cases fuel with
  | zero => rfl
  | succ f =>
    simp only [parseItems]
    rw [parseVal_ws f l h]

mutual

theorem jsize_le : ∀ j : Json, jsize j ≤ 2 * (serialize j).length
  | .null => by simp [jsize, serialize]
  | .bool true => by simp [jsize, serialize]
  | .bool false => by simp [jsize, serialize]
  | .num n => by
    obtain ⟨c, cs, hcons, _⟩ := intRender_head n
    have hl : (serialize (Json.num n)).length = (c :: cs).length := by
      show (intRender n).length = _
      rw [hcons]
    simp only [jsize, hl, List.length_cons]
    omega
  | .str s => by
    simp only [jsize, serialize, List.length_cons]
    omega
  | .arr xs => by
    have h := lsize_le xs
    simp only [jsize, serialize, List.length_cons, List.length_append]
    omega
  | .obj kvs => by
    have h := fsize_le kvs
    simp only [jsize, serialize, List.length_cons, List.length_append]
    omega

theorem lsize_le : ∀ xs : List Json, lsize xs ≤ 2 * (serializeItems xs).length + 1
  | [] => by simp [lsize, serializeItems]
  | [x] => by
    have h := jsize_le x
    have e1 : lsize [x] = 1 + jsize x + 0 := rfl
    have e2 : serializeItems [x] = serialize x := rfl
    rw [e1, e2]
    omega
  | x :: y :: ys => by
    have h1 := jsize_le x
    have h2 := lsize_le (y :: ys)
    have e1 : lsize (x :: y :: ys) = 1 + jsize x + lsize (y :: ys) := rfl
    have e2 : serializeItems (x :: y :: ys) = serialize x ++ ',' :: serializeItems (y :: ys) := rfl
    rw [e1, e2]
    simp only [List.length_append, List.length_cons]
    omega

theorem fsize_le : ∀ kvs : List (List Char × Json),
    fsize kvs ≤ 2 * (serializeFields kvs).length + 1
  | [] => by simp [fsize, serializeFields]
  | [(k, v)] => by
    have h := jsize_le v
    have e1 : fsize [(k, v)] = 1 + jsize v + 0 := rfl
    have e2 : serializeFields [(k, v)] = '"' :: (escapeList k ++ ['"', ':'] ++ serialize v) := rfl
    rw [e1, e2]
    simp only [List.length_cons, List.length_append]
    omega
  | (k, v) :: y :: ys => by
    have h1 := jsize_le v
    have h2 := fsize_le (y :: ys)
    have e1 : fsize ((k, v) :: y :: ys) = 1 + jsize v + fsize (y :: ys) := rfl
    have e2 : serializeFields ((k, v) :: y :: ys)
        = ('"' :: (escapeList k ++ ['"', ':'] ++ serialize v)) ++ ',' :: serializeFields (y :: ys) := rfl
    rw [e1, e2]
    simp only [List.length_cons, List.length_append]
    omega

end

theorem lsize_le_joinSep : ∀ js : List Json,
    lsize js ≤ 2 * (joinSep (js.map serialize)).length + 1
  | [] => by simp [lsize, joinSep]
  | [x] => by
    have h := jsize_le x
    have e1 : lsize [x] = 1 + jsize x + 0 := rfl
    have e2 : joinSep ([x].map serialize) = serialize x := rfl
    rw [e1, e2]
    omega
  | x :: y :: ys => by
    have h1 := jsize_le x
    have h2 := lsize_le_joinSep (y :: ys)
    have e1 : lsize (x :: y :: ys) = 1 + jsize x + lsize (y :: ys) := rfl
    have e2 : joinSep ((x :: y :: ys).map serialize)
        = serialize x ++ ',' :: '\n' :: joinSep ((y :: ys).map serialize) := rfl
    rw [e1, e2]
    simp only [List.length_append, List.length_cons]
    omega

theorem joinSep_serialize_head (j : Json) (js : List Json) :
    ∃ c cs, joinSep ((j :: js).map serialize) = c :: cs ∧ startChar c = true := by
  obtain ⟨c, cs, hcons, hstart⟩ := serialize_head j
  cases js with
  | nil => exact ⟨c, cs, by simp [joinSep, hcons], hstart⟩
  | cons y ys =>
    refine ⟨c, cs ++ ',' :: '\n' :: joinSep ((y :: ys).map serialize), ?_, hstart⟩
    simp only [List.map_cons, joinSep]
    rw [hcons]
    rfl

theorem parseItemsFile_rt : ∀ (fuel : Nat) (js : List Json) (rest : List Char),
    js ≠ [] → lsize js ≤ fuel →
    parseItems fuel (joinSep (js.map serialize) ++ '\n' :: ']' :: rest) = some (js, rest)
  | _, [], _, hne, _ => absurd rfl hne
  | 0, x :: xs, _, _, hsz => by
    exfalso
    have h1 := jsize_pos x
    have h0 : lsize (x :: xs) = 1 + jsize x + lsize xs := rfl
    omega
  | fuel + 1, [x], rest, _, hsz => by
    have hjx : jsize x ≤ fuel := by
      have h0 : lsize [x] = 1 + jsize x + 0 := rfl
      omega
    have hv := parseVal_rt fuel x ('\n' :: ']' :: rest) hjx (numSafe_cons (by decide) _)
    show parseItems (fuel + 1) (joinSep [serialize x] ++ '\n' :: ']' :: rest) = some ([x], rest)
    simp only [joinSep]
    simp [parseItems, hv, skipWs, List.dropWhile, isWs]
  | fuel + 1, x :: y :: ys, rest, _, hsz => by
    have hjx : jsize x ≤ fuel := by
      have h0 : lsize (x :: y :: ys) = 1 + jsize x + lsize (y :: ys) := rfl
      omega
    have hly : lsize (y :: ys) ≤ fuel := by
      have h0 : lsize (x :: y :: ys) = 1 + jsize x + lsize (y :: ys) := rfl
      have h1 := jsize_pos x
      omega
    have hv := parseVal_rt fuel x
      (',' :: '\n' :: (joinSep ((y :: ys).map serialize) ++ '\n' :: ']' :: rest)) hjx
      (numSafe_cons (by decide) _)
    have hrec := parseItemsFile_rt fuel (y :: ys) rest (List.cons_ne_nil y ys) hly
    have hrec2 : parseItems fuel
        ('\n' :: (joinSep ((y :: ys).map serialize) ++ '\n' :: ']' :: rest))
        = some (y :: ys, rest) := by
      rw [parseItems_skip fuel _ (by decide)]
      exact hrec
    simp only [List.map_cons] at hv hrec2
    show parseItems (fuel + 1) (joinSep ((x :: y :: ys).map serialize) ++ '\n' :: ']' :: rest)
        = some (x :: y :: ys, rest)
    simp only [List.map_cons, joinSep, List.append_assoc, List.cons_append]
    simp [parseItems, hv, hrec2, skipWs, List.dropWhile, isWs]

/-- The validity check for the sink file: it parses as one JSON array with
nothing but whitespace after it, and the parse returns the array members. -/
def parseJsonArrayFile (file : List Char) : Option (List Json) :=
  match skipWs file with
  | [] => none
  | c :: rest =>
    if c = '[' then
      match skipWs rest with
      | [] => none
      | d :: r =>
        if d = ']' then (if (skipWs r).isEmpty then some [] else none)
        else
          match parseItems (2 * file.length + 1) (d :: r) with
          | none => none
          | some p => if (skipWs p.2).isEmpty then some p.1 else none
    else none

theorem parseJsonArrayFile_render : ∀ js : List Json,
    parseJsonArrayFile (jsonArrayFile (js.map serialize)) = some js
  | [] => by
    show parseJsonArrayFile ('[' :: '\n' :: ([] ++ '\n' :: [']'])) = some []
    simp [parseJsonArrayFile, skipWs, List.dropWhile, isWs]
  | j :: js => by
    obtain ⟨c0, cs0, hjcons, hstart⟩ := joinSep_serialize_head j js
    have hfuel : lsize (j :: js) ≤ 2 * (jsonArrayFile ((j :: js).map serialize)).length + 1 := by
      have h1 := lsize_le_joinSep (j :: js)
      have h2 : (jsonArrayFile ((j :: js).map serialize)).length
          = (joinSep ((j :: js).map serialize)).length + 4 := by
        simp [jsonArrayFile]
      omega
    have hitems := parseItemsFile_rt (2 * (jsonArrayFile ((j :: js).map serialize)).length + 1)
      (j :: js) [] (List.cons_ne_nil j js) hfuel
    have hitems2 : parseItems (2 * (jsonArrayFile ((j :: js).map serialize)).length + 1)
        (c0 :: (cs0 ++ '\n' :: ']' :: [])) = some (j :: js, []) := by
      rw [← List.cons_append, ← hjcons]
      exact hitems
    have hskipInner : List.dropWhile isWs
        ('\n' :: (joinSep ((j :: js).map serialize) ++ '\n' :: [']']))
        = c0 :: (cs0 ++ '\n' :: [']']) := by
      rw [show List.dropWhile isWs ('\n' :: (joinSep ((j :: js).map serialize) ++ '\n' :: [']']))
          = skipWs (joinSep ((j :: js).map serialize) ++ '\n' :: [']']) from by
        exact skipWs_cons_ws _ (by decide)]
      rw [hjcons, List.cons_append]
      exact skipWs_cons _ (startChar_not_ws hstart)
    have hne1 : ¬(c0 = ']') := (startChar_ne hstart).1
    show parseJsonArrayFile (jsonArrayFile ((j :: js).map serialize)) = some (j :: js)
    rw [parseJsonArrayFile]
    have hskipOuter : skipWs (jsonArrayFile ((j :: js).map serialize))
        = '[' :: ('\n' :: (joinSep ((j :: js).map serialize) ++ '\n' :: [']'])) := by
      show skipWs ('[' :: ('\n' :: (joinSep ((j :: js).map serialize) ++ '\n' :: [']']))) = _
      exact skipWs_cons _ (by decide)
    rw [hskipOuter]
    simp only [if_pos rfl]
    rw [show skipWs ('\n' :: (joinSep ((j :: js).map serialize) ++ '\n' :: [']']))
        = List.dropWhile isWs ('\n' :: (joinSep ((j :: js).map serialize) ++ '\n' :: [']'])) from rfl]
    rw [hskipInner]
    simp only [if_neg hne1]
    rw [hitems2]
    simp [skipWs]

/-- C3: for every sequence of successful appendRecord calls on the JSON
destination starting from an absent or empty file, the file parses as a
syntactically valid JSON array after each call, and the parsed array after
a call equals the parsed array before the call plus exactly the one newly
appended record: the first call writes a one-element array, each later
call extends it by one element. -/
theorem json_append_round_trip (js : List Json) (j : Json) :
    parseJsonArrayFile (appendAll ((js ++ [j]).map serialize)) = some (js ++ [j]) ∧
    (js ≠ [] → parseJsonArrayFile (appendAll (js.map serialize)) = some js) := by
  constructor
  · rw [appendAll_render _ (by simp)]
    exact parseJsonArrayFile_render (js ++ [j])
  · intro h
    rw [appendAll_render _ (by simpa using h)]
    exact parseJsonArrayFile_render js

theorem json_append_round_trip_witness :
    parseJsonArrayFile (appendAll ([Json.num 1].map serialize)) = some [Json.num 1] :=
  (json_append_round_trip [Json.num 1] (Json.obj [])).2 (List.cons_ne_nil _ _)

/-- C10: when the JSON destination file already exists with size exactly 1
or 2 bytes (for example containing just a bracket pair), the append
operation returns without writing anything: the record is silently
dropped, no error is raised, the file content is unchanged, and the append
round-trip property fails for such a file (appending a record does not add
it to the parsed array). -/
theorem small_file_append_is_noop :
    (∀ rec : List Char, appendToJsonFile ['[', ']'] rec = ['[', ']']) ∧
    (∀ rec : List Char, appendToJsonFile [']'] rec = [']']) ∧
    parseJsonArrayFile (appendToJsonFile ['[', ']'] (serialize (Json.num 1))) = some [] ∧
    parseJsonArrayFile (appendToJsonFile ['[', ']'] (serialize (Json.num 1)))
      ≠ some [Json.num 1] := by
  refine ⟨fun rec => rfl, fun rec => rfl, rfl, ?_⟩
  intro h
  exact List.noConfusion (Option.some.inj h)

/-! ### Commit activity analysis

Model of AdvancedGitHubMiner.analyze_commit_activity (miner.py lines
626-836).  The remote API is abstracted as data: each repository carries
the outcome of every commit query the code may issue on it.  The stop
event is modelled as unset: observing it at a repository boundary merely
truncates the scanned prefix, which the quantification over repository
lists already covers, and observing it before the user fetch returns the
same zero record as a listing failure.  Python floats are modelled as
rationals.  Per-commit processing exceptions have no source in the model
and are not represented. -/

/-- A naive datetime as the code consumes it: a linearly ordered timestamp
for the cutoff comparison, with the strftime day key and the hour the code
extracts from it. -/
structure NaiveDT where
  stamp : Int
  dayKey : String
  hour : Nat

/-- One commit as returned by a commit query; authorIsUser models the test
c.author is not None and c.author.login == username. -/
structure Commit where
  sha : String
  message : String
  date : NaiveDT
  authorIsUser : Bool
  additions : Nat
  deletions : Nat
  total : Nat

/-- One owned repository with the outcome of each commit query the code
may try on it: .error models a raised GithubException, .ok the returned
list.  The first three fields are the windowed-mode chain, the last two
the unbounded-mode chain. -/
structure Repo where
  name : String
  fork : Bool
  qAuthorSince : Except Unit (List Commit)
  qSince : Except Unit (List Commit)
  qPlain : Except Unit (List Commit)
  qAuthorAll : Except Unit (List Commit)
  qPlainAll : Except Unit (List Commit)

/-- The commits a strategy chain produced for one repository, plus which
strategies were executed. -/
structure FetchTrace where
  result : Option (List Commit)
  tried1 : Bool
  tried2 : Bool
  tried3 : Bool

/-- Windowed-mode strategy chain (miner.py lines 711-736): author+since
query; on exception the since query locally filtered by author; on
exception the first 50 commits of the plain query locally filtered by
author and window; on exception the repository is skipped. -/
def fetchRecentTrace (cutoff : Int) (r : Repo) : FetchTrace :=
  match r.qAuthorSince with
  | .ok cs => ⟨some cs, true, false, false⟩
  | .error _ =>
    match r.qSince with
    | .ok cs => ⟨some (cs.filter (fun c => c.authorIsUser)), true, true, false⟩
    | .error _ =>
      match r.qPlain with
      | .ok cs =>
        ⟨some ((cs.take 50).filter
          (fun c => c.authorIsUser && decide (c.date.stamp ≥ cutoff))), true, true, true⟩
      | .error _ => ⟨none, true, true, true⟩

/-- Unbounded-mode strategy chain (miner.py lines 694-709): author query
with no date bound; on exception the plain query locally filtered by
author; on exception the repository is skipped. -/
def fetchAllTrace (r : Repo) : FetchTrace :=
  match r.qAuthorAll with
  | .ok cs => ⟨some cs, true, false, false⟩
  | .error _ =>
    match r.qPlainAll with
    | .ok cs => ⟨some (cs.filter (fun c => c.authorIsUser)), true, true, false⟩
    | .error _ => ⟨none, true, true, false⟩

def fetchCommits (fetchAll : Bool) (cutoff : Int) (r : Repo) : Option (List Commit) :=
  if fetchAll then (fetchAllTrace r).result else (fetchRecentTrace cutoff r).result

/-- Python dict counter update: if key absent set it to 0, then add 1;
insertion order is preserved. -/
def bumpKey : List (String × Nat) → String → List (String × Nat)
  | [], k => [(k, 1)]
  | (k0, v0) :: rest, k =>
    if k0 = k then (k0, v0 + 1) :: rest else (k0, v0) :: bumpKey rest k

/-- Python dict assignment d at key k becomes v, preserving insertion
order. -/
def setKey : List (String × Nat) → String → Nat → List (String × Nat)
  | [], k, v => [(k, v)]
  | (k0, v0) :: rest, k, v =>
    if k0 = k then (k0, v) :: rest else (k0, v0) :: setKey rest k v

/-- Python set.add on a set kept as a deduplicated list; the iteration
order of a Python set is unspecified, and only membership and size are
used below. -/
def addDay (l : List String) (d : String) : List String :=
  if l.contains d then l else l ++ [d]

/-- One stored entry of the recent_commits detail list. -/
structure CommitDetail where
  repo : String
  sha : String
  message : String
  date : NaiveDT
  additions : Nat
  deletions : Nat
  total : Nat

/-- The activity_data dictionary. -/
structure Activity where
  total_commits : Nat
  total_recent_commits : Nat
  active_days : List String
  commit_frequency_by_day : List (String × Nat)
  commit_frequency_by_hour : List (String × Nat)
  recent_commits : List CommitDetail
  most_active_repo : Option String
  commit_streaks : List Nat
  avg_commits_per_day : Rat
  repositories_analyzed : Nat
  total_repositories : Nat
  fetch_mode : String

/-- The all-zero activity record the code returns on a stop event, a
listing failure, or as the initial accumulator. -/
def emptyActivity (fetchAll : Bool) : Activity :=
  { total_commits := 0, total_recent_commits := 0, active_days := [],
    commit_frequency_by_day := [], commit_frequency_by_hour := [],
    recent_commits := [], most_active_repo := none, commit_streaks := [],
    avg_commits_per_day := 0, repositories_analyzed := 0, total_repositories := 0,
    fetch_mode := if fetchAll then "all" else "recent" }

/-- The body of the per-commit loop (miner.py lines 740-791); the Nat
component is the per-repository repo_commits counter. -/
def processCommit (fetchAll : Bool) (cutoff : Int) (repoName : String)
    (s : Activity × Nat) (c : Commit) : Activity × Nat :=
  let a := s.1
  let repoCommits := s.2 + 1
  let a := if fetchAll then { a with total_commits := a.total_commits + 1 } else a
  if c.date.stamp ≥ cutoff then
    let a := { a with total_recent_commits := a.total_recent_commits + 1 }
    if a.recent_commits.length < 50 then
      let dk := c.date.dayKey
      let hk := toString c.date.hour
      let a := { a with active_days := addDay a.active_days dk }
      let a := { a with commit_frequency_by_day := bumpKey a.commit_frequency_by_day dk }
      let a := { a with commit_frequency_by_hour := bumpKey a.commit_frequency_by_hour hk }
      let detail : CommitDetail :=
        { repo := repoName, sha := c.sha, message := c.message.take 200, date := c.date,
          additions := c.additions, deletions := c.deletions, total := c.total }
      ({ a with recent_commits := a.recent_commits ++ [detail] }, repoCommits)
    else (a, repoCommits)
  else (a, repoCommits)

/-- The body of the per-repository loop (miner.py lines 683-800); the
second component is the repo_commit_counts dictionary. -/
def processRepo (fetchAll : Bool) (cutoff : Int)
    (s : Activity × List (String × Nat)) (r : Repo) : Activity × List (String × Nat) :=
  let a := { s.1 with repositories_analyzed := s.1.repositories_analyzed + 1 }
  match fetchCommits fetchAll cutoff r with
  | none => (a, s.2)
  | some commits =>
    let p := commits.foldl (processCommit fetchAll cutoff r.name) (a, 0)
    (p.1, setKey s.2 r.name p.2)

/-- Python max over dict keys with the value as key function: the first
key holding the maximal value wins, later keys replace only on a strictly
greater value. -/
def pyMaxGo (best : String × Nat) : List (String × Nat) → String × Nat
  | [] => best
  | x :: xs => pyMaxGo (if x.2 > best.2 then x else best) xs

def pyMax : List (String × Nat) → Option (String × Nat)
  | [] => none
  | x :: xs => some (pyMaxGo x xs)

/-- The post-scan steps (miner.py lines 802-812): set most_active_repo
from the per-repository counters when any exist, then the average over
active days when any exist. -/
def finalizeActivity (p : Activity × List (String × Nat)) : Activity :=
  let a := p.1
  let a : Activity := match pyMax p.2 with
    | some kv => { a with most_active_repo := some kv.1 }
    | none => a
  if a.active_days.length > 0 then
    { a with avg_commits_per_day :=
        (a.total_recent_commits : Rat) / (a.active_days.length : Rat) }
  else a

/-- analyze_commit_activity.  reposFetch is the outcome of
get_user(username).get_repos(); .error is the outer GithubException branch
returning the zero record. -/
def analyze_commit_activity (fetchAll : Bool) (cutoff : Int)
    (reposFetch : Except Unit (List Repo)) : Activity :=
  match reposFetch with
  | .error _ => emptyActivity fetchAll
  | .ok repos =>
    let originalRepos := repos.filter (fun r => !r.fork)
    let init := { emptyActivity fetchAll with total_repositories := originalRepos.length }
    if originalRepos.isEmpty then init
    else
      let repoLimit := if fetchAll then 25 else 15
      finalizeActivity
        ((originalRepos.take repoLimit).foldl (processRepo fetchAll cutoff) (init, []))

/-- C2: in the Commit Activity Resolver's windowed per-repository strategy
chain, a later strategy is attempted if and only if the previous strategy
raised a query-level error; when strategy 1 raises and strategy 2 returns
successfully (even a non-empty filtered list), strategy 2's locally
filtered result is used verbatim and strategy 3 is never attempted; and a
successful result, empty included, never triggers escalation. -/
theorem strategy_escalation_iff (cutoff : Int) (r : Repo) :
    ((fetchRecentTrace cutoff r).tried2 = true ↔ r.qAuthorSince = .error ()) ∧
    ((fetchRecentTrace cutoff r).tried3 = true ↔
      r.qAuthorSince = .error () ∧ r.qSince = .error ()) ∧
    (∀ cs, r.qAuthorSince = .ok cs →
      (fetchRecentTrace cutoff r).result = some cs ∧
      (fetchRecentTrace cutoff r).tried2 = false) ∧
    (∀ cs, r.qAuthorSince = .error () → r.qSince = .ok cs →
      (fetchRecentTrace cutoff r).result = some (cs.filter (fun c => c.authorIsUser)) ∧
      (fetchRecentTrace cutoff r).tried3 = false) := by
  rcases h1 : r.qAuthorSince with e1 | cs1 <;> rcases h2 : r.qSince with e2 | cs2 <;>
    rcases h3 : r.qPlain with e3 | cs3 <;>
      simp [fetchRecentTrace, h1, h2, h3]

def commitW : Commit :=
  { sha := "s1", message := "m", date := { stamp := 5, dayKey := "d", hour := 3 },
    authorIsUser := true, additions := 1, deletions := 2, total := 3 }

def commitX : Commit :=
  { commitW with sha := "s2", authorIsUser := false }

def repoEscalate : Repo :=
  { name := "r1", fork := false, qAuthorSince := .error (), qSince := .ok [commitW, commitX],
    qPlain := .ok [], qAuthorAll := .error (), qPlainAll := .error () }

theorem strategy_escalation_iff_witness :
    (fetchRecentTrace 0 repoEscalate).result = some [commitW] ∧
    (fetchRecentTrace 0 repoEscalate).tried3 = false := by
  have h := (strategy_escalation_iff 0 repoEscalate).2.2.2 [commitW, commitX] rfl rfl
  refine ⟨h.1.trans ?_, h.2⟩
  rfl


/-- The commits within the lookback window, in retrieval order. -/
def windowCommits (cutoff : Int) (cs : List Commit) : List Commit :=
  cs.filter (fun c => decide (c.date.stamp ≥ cutoff))

def dayAgg (cs : List Commit) : List String :=
  cs.foldl (fun l c => addDay l c.date.dayKey) []

def byDayAgg (cs : List Commit) : List (String × Nat) :=
  cs.foldl (fun m c => bumpKey m c.date.dayKey) []

def byHourAgg (cs : List Commit) : List (String × Nat) :=
  cs.foldl (fun m c => bumpKey m (toString c.date.hour)) []

/-- The non-fork repositories the analysis actually scans. -/
def scannedRepos (fetchAll : Bool) (reposFetch : Except Unit (List Repo)) : List Repo :=
  match reposFetch with
  | .error _ => []
  | .ok repos => (repos.filter (fun r => !r.fork)).take (if fetchAll then 25 else 15)

/-- Every commit the strategy chains retrieved, in scan order. -/
def retrievedAll (fetchAll : Bool) (cutoff : Int)
    (reposFetch : Except Unit (List Repo)) : List Commit :=
  ((scannedRepos fetchAll reposFetch).filterMap (fetchCommits fetchAll cutoff)).flatten

/-- The running relationship between the retrieved commits processed so
far and the accumulating activity record. -/
def AggInv (fetchAll : Bool) (cutoff : Int) (R : List Commit) (a : Activity) : Prop :=
  a.recent_commits.length = min (windowCommits cutoff R).length 50 ∧
  a.active_days = dayAgg ((windowCommits cutoff R).take 50) ∧
  a.commit_frequency_by_day = byDayAgg ((windowCommits cutoff R).take 50) ∧
  a.commit_frequency_by_hour = byHourAgg ((windowCommits cutoff R).take 50) ∧
  a.total_recent_commits = (windowCommits cutoff R).length ∧
  a.total_commits = (if fetchAll then R.length else 0)

theorem windowCommits_append_one (cutoff : Int) (R : List Commit) (c : Commit) :
    windowCommits cutoff (R ++ [c])
      = windowCommits cutoff R ++ (if c.date.stamp ≥ cutoff then [c] else []) := by
  by_cases hc : c.date.stamp ≥ cutoff <;> simp [windowCommits, List.filter_append, hc]

theorem dayAgg_append_one (l : List Commit) (c : Commit) :
    dayAgg (l ++ [c]) = addDay (dayAgg l) c.date.dayKey := by
  simp [dayAgg, List.foldl_append]

theorem byDayAgg_append_one (l : List Commit) (c : Commit) :
    byDayAgg (l ++ [c]) = bumpKey (byDayAgg l) c.date.dayKey := by
  simp [byDayAgg, List.foldl_append]

theorem byHourAgg_append_one (l : List Commit) (c : Commit) :
    byHourAgg (l ++ [c]) = bumpKey (byHourAgg l) (toString c.date.hour) := by
  simp [byHourAgg, List.foldl_append]

theorem take50_append_lt (W : List Commit) (c : Commit) (h : W.length < 50) :
    (W ++ [c]).take 50 = W.take 50 ++ [c] := by
  rw [List.take_of_length_le (by omega : W.length ≤ 50)]
  rw [List.take_of_length_le (by simp; omega)]

theorem take50_append_ge (W : List Commit) (c : Commit) (h : 50 ≤ W.length) :
    (W ++ [c]).take 50 = W.take 50 := by
  rw [List.take_append_of_le_length h]

theorem processCommit_AggInv (fetchAll : Bool) (cutoff : Int) (rn : String)
    (R : List Commit) (a : Activity) (k : Nat) (c : Commit)
    (h : AggInv fetchAll cutoff R a) :
    AggInv fetchAll cutoff (R ++ [c]) (processCommit fetchAll cutoff rn (a, k) c).1 := by
  obtain ⟨h1, h2, h3, h4, h5, h6⟩ := h
  by_cases hc : c.date.stamp ≥ cutoff
  · have hw : windowCommits cutoff (R ++ [c]) = windowCommits cutoff R ++ [c] := by
      rw [windowCommits_append_one, if_pos hc]
    by_cases hlen : a.recent_commits.length < 50
    · have hWlt : (windowCommits cutoff R).length < 50 := by omega
      have htake := take50_append_lt (windowCommits cutoff R) c hWlt
      refine ⟨?_, ?_, ?_, ?_, ?_, ?_⟩ <;>
        · unfold processCommit
          cases fetchAll <;>
            simp [hc, hlen, hw, htake, hWlt, dayAgg_append_one, byDayAgg_append_one,
              byHourAgg_append_one, h1, h2, h3, h4, h5, h6] <;> omega
    · have hWge : 50 ≤ (windowCommits cutoff R).length := by omega
      have hnlt : ¬((windowCommits cutoff R).length < 50) := by omega
      have htake := take50_append_ge (windowCommits cutoff R) c hWge
      refine ⟨?_, ?_, ?_, ?_, ?_, ?_⟩ <;>
        · unfold processCommit
          cases fetchAll <;>
            simp [hc, hlen, hw, htake, hnlt, h1, h2, h3, h4, h5, h6] <;> omega
  · have hw : windowCommits cutoff (R ++ [c]) = windowCommits cutoff R := by
      rw [windowCommits_append_one, if_neg hc]; simp
    refine ⟨?_, ?_, ?_, ?_, ?_, ?_⟩ <;>
      · unfold processCommit
        cases fetchAll <;>
          simp [hc, hw, h1, h2, h3, h4, h5, h6]

theorem foldlCommits_AggInv (fetchAll : Bool) (cutoff : Int) (rn : String) :
    ∀ (cs : List Commit) (R : List Commit) (s : Activity × Nat),
    AggInv fetchAll cutoff R s.1 →
    AggInv fetchAll cutoff (R ++ cs) ((cs.foldl (processCommit fetchAll cutoff rn) s).1)
  | [], R, s, h => by simpa using h
  | c :: cs, R, s, h => by
    have hstep := processCommit_AggInv fetchAll cutoff rn R s.1 s.2 c h
    have hrec := foldlCommits_AggInv fetchAll cutoff rn cs (R ++ [c])
      (processCommit fetchAll cutoff rn s c) (by
        rw [show processCommit fetchAll cutoff rn s c
            = processCommit fetchAll cutoff rn (s.1, s.2) c from rfl]
        exact hstep)
    rw [List.foldl_cons]
    rw [show R ++ c :: cs = (R ++ [c]) ++ cs from by simp]
    exact hrec

theorem AggInv_analyzed_bump (fetchAll : Bool) (cutoff : Int) (R : List Commit)
    (a : Activity) (h : AggInv fetchAll cutoff R a) :
    AggInv fetchAll cutoff R
      { a with repositories_analyzed := a.repositories_analyzed + 1 } := by
  obtain ⟨h1, h2, h3, h4, h5, h6⟩ := h
  exact ⟨h1, h2, h3, h4, h5, h6⟩

theorem foldlRepos_AggInv (fetchAll : Bool) (cutoff : Int) :
    ∀ (rs : List Repo) (R : List Commit) (s : Activity × List (String × Nat)),
    AggInv fetchAll cutoff R s.1 →
    AggInv fetchAll cutoff (R ++ (rs.filterMap (fetchCommits fetchAll cutoff)).flatten)
      ((rs.foldl (processRepo fetchAll cutoff) s).1)
  | [], R, s, h => by simpa using h
  | r :: rs, R, s, h => by
    rw [List.foldl_cons]
    have hbump := AggInv_analyzed_bump fetchAll cutoff R s.1 h
    cases hf : fetchCommits fetchAll cutoff r with
    | none =>
      have hrec := foldlRepos_AggInv fetchAll cutoff rs R
        (processRepo fetchAll cutoff s r) (by
          unfold processRepo
          rw [hf]
          exact hbump)
      rw [show List.filterMap (fetchCommits fetchAll cutoff) (r :: rs)
          = rs.filterMap (fetchCommits fetchAll cutoff) from by
        simp [List.filterMap_cons, hf]]
      exact hrec
    | some commits =>
      have hcs := foldlCommits_AggInv fetchAll cutoff r.name commits R
        ({ s.1 with repositories_analyzed := s.1.repositories_analyzed + 1 }, 0) hbump
      have hrec := foldlRepos_AggInv fetchAll cutoff rs (R ++ commits)
        (processRepo fetchAll cutoff s r) (by
          unfold processRepo
          rw [hf]
          exact hcs)
      rw [show List.filterMap (fetchCommits fetchAll cutoff) (r :: rs)
          = commits :: rs.filterMap (fetchCommits fetchAll cutoff) from by
        simp [List.filterMap_cons, hf]]
      rw [List.flatten_cons]
      rw [show R ++ (commits ++ (rs.filterMap (fetchCommits fetchAll cutoff)).flatten)
          = (R ++ commits) ++ (rs.filterMap (fetchCommits fetchAll cutoff)).flatten from by
        simp]
      exact hrec

theorem finalize_fields (p : Activity × List (String × Nat)) :
    (finalizeActivity p).recent_commits = p.1.recent_commits ∧
    (finalizeActivity p).active_days = p.1.active_days ∧
    (finalizeActivity p).commit_frequency_by_day = p.1.commit_frequency_by_day ∧
    (finalizeActivity p).commit_frequency_by_hour = p.1.commit_frequency_by_hour ∧
    (finalizeActivity p).total_recent_commits = p.1.total_recent_commits ∧
    (finalizeActivity p).total_commits = p.1.total_commits ∧
    (finalizeActivity p).repositories_analyzed = p.1.repositories_analyzed ∧
    (finalizeActivity p).total_repositories = p.1.total_repositories := by
  unfold finalizeActivity
  cases hmax : pyMax p.2 <;>
    · dsimp only
      split_ifs <;> simp

theorem finalize_most_active (p : Activity × List (String × Nat)) :
    (finalizeActivity p).most_active_repo
      = match pyMax p.2 with
        | some kv => some kv.1
        | none => p.1.most_active_repo := by
  unfold finalizeActivity
  cases hmax : pyMax p.2 <;>
    · dsimp only
      split_ifs <;> simp

theorem AggInv_finalize (fetchAll : Bool) (cutoff : Int) (R : List Commit)
    (p : Activity × List (String × Nat)) (h : AggInv fetchAll cutoff R p.1) :
    AggInv fetchAll cutoff R (finalizeActivity p) := by
  obtain ⟨h1, h2, h3, h4, h5, h6⟩ := h
  obtain ⟨f1, f2, f3, f4, f5, f6, f7, f8⟩ := finalize_fields p
  exact ⟨f1 ▸ h1, f2 ▸ h2, f3 ▸ h3, f4 ▸ h4, f5 ▸ h5, f6 ▸ h6⟩

theorem emptyActivity_AggInv (fetchAll : Bool) (cutoff : Int) :
    AggInv fetchAll cutoff [] (emptyActivity fetchAll) := by
  refine ⟨?_, ?_, ?_, ?_, ?_, ?_⟩ <;>
    cases fetchAll <;> rfl

theorem analyze_AggInv (fetchAll : Bool) (cutoff : Int)
    (reposFetch : Except Unit (List Repo)) :
    AggInv fetchAll cutoff (retrievedAll fetchAll cutoff reposFetch)
      (analyze_commit_activity fetchAll cutoff reposFetch) := by
  cases reposFetch with
  | error e =>
    show AggInv fetchAll cutoff (retrievedAll fetchAll cutoff (.error e)) (emptyActivity fetchAll)
    have hret : retrievedAll fetchAll cutoff (.error e) = [] := rfl
    rw [hret]
    exact emptyActivity_AggInv fetchAll cutoff
  | ok repos =>
    unfold analyze_commit_activity
    by_cases hemp : (repos.filter (fun r => !r.fork)).isEmpty
    · have hnil : repos.filter (fun r => !r.fork) = [] := List.isEmpty_iff.mp hemp
      simp only [hemp, if_true]
      have hret : retrievedAll fetchAll cutoff (.ok repos) = [] := by
        show ((scannedRepos fetchAll (.ok repos)).filterMap
          (fetchCommits fetchAll cutoff)).flatten = []
        show (((repos.filter (fun r => !r.fork)).take
          (if fetchAll then 25 else 15)).filterMap (fetchCommits fetchAll cutoff)).flatten = []
        rw [hnil]
        simp
      rw [hret]
      have h0 := emptyActivity_AggInv fetchAll cutoff
      obtain ⟨h1, h2, h3, h4, h5, h6⟩ := h0
      exact ⟨h1, h2, h3, h4, h5, h6⟩
    · simp only [hemp, if_false]
      have hinit : AggInv fetchAll cutoff []
          { emptyActivity fetchAll with
              total_repositories := (repos.filter (fun r => !r.fork)).length } := by
        have h0 := emptyActivity_AggInv fetchAll cutoff
        obtain ⟨h1, h2, h3, h4, h5, h6⟩ := h0
        exact ⟨h1, h2, h3, h4, h5, h6⟩
      have hfold := foldlRepos_AggInv fetchAll cutoff
        ((repos.filter (fun r => !r.fork)).take (if fetchAll then 25 else 15)) []
        ({ emptyActivity fetchAll with
            total_repositories := (repos.filter (fun r => !r.fork)).length }, []) hinit
      rw [List.nil_append] at hfold
      exact AggInv_finalize fetchAll cutoff _ _ hfold



/-- 51 window commits on 51 distinct days by the mined user. -/
def manyCommits : List Commit :=
  (List.range 51).map (fun i =>
    { sha := "c", message := "m", date := { stamp := 0, dayKey := toString i, hour := 0 },
      authorIsUser := true, additions := 0, deletions := 0, total := 0 })

/-- A repository whose first strategy succeeds with manyCommits in both
modes. -/
def bigRepo : Repo :=
  { name := "big", fork := false, qAuthorSince := .ok manyCommits, qSince := .error (),
    qPlain := .error (), qAuthorAll := .ok manyCommits, qPlainAll := .error () }

/-- C5: in every execution of commit-activity analysis the stored
recent_commits detail list never exceeds 50 entries regardless of mode; in
unbounded mode total_commits is not capped, as the 51-commit input shows,
and total_recent_commits is always at most total_commits. -/
theorem recent_commits_cap (fetchAll : Bool) (cutoff : Int)
    (reposFetch : Except Unit (List Repo)) :
    (analyze_commit_activity fetchAll cutoff reposFetch).recent_commits.length ≤ 50 ∧
    (fetchAll = true →
      (analyze_commit_activity fetchAll cutoff reposFetch).total_recent_commits
        ≤ (analyze_commit_activity fetchAll cutoff reposFetch).total_commits) ∧
    (analyze_commit_activity true 0 (.ok [bigRepo])).total_commits > 50 := by
  obtain ⟨h1, _, _, _, h5, h6⟩ := analyze_AggInv fetchAll cutoff reposFetch
  refine ⟨?_, ?_, ?_⟩
  · rw [h1]; omega
  · intro hf
    rw [h5, h6, if_pos hf]
    exact List.length_filter_le _ _
  · obtain ⟨_, _, _, _, _, h6b⟩ := analyze_AggInv true 0 (.ok [bigRepo])
    rw [h6b]
    simp only [if_pos rfl]
    have he : retrievedAll true 0 (.ok [bigRepo]) = manyCommits ++ [] := rfl
    rw [he]
    simp [manyCommits]

theorem recent_commits_cap_witness :
    (analyze_commit_activity true 0 (.ok [bigRepo])).recent_commits.length ≤ 50 ∧
    (analyze_commit_activity true 0 (.ok [bigRepo])).total_recent_commits
      ≤ (analyze_commit_activity true 0 (.ok [bigRepo])).total_commits :=
  ⟨(recent_commits_cap true 0 (.ok [bigRepo])).1,
   (recent_commits_cap true 0 (.ok [bigRepo])).2.1 rfl⟩

set_option maxRecDepth 100000 in
/-- C6 fails on the code: the active_days, by-day and by-hour updates sit
inside the stored-list guard len(recent_commits) < 50, so with 51
retrieved in-window commits on 51 distinct days the day aggregate holds 50
days although the claim requires all 51. -/
theorem aggregates_capped_counterexample :
    (analyze_commit_activity false 0 (.ok [bigRepo])).active_days.length = 50 ∧
    ((windowCommits 0 manyCommits).map (fun c => c.date.dayKey)).dedup.length = 51 := by
  constructor
  · decide
  · decide

/-- C6 amended: active_days, commit_frequency_by_day and
commit_frequency_by_hour derive exactly from the first 50 retrieved
commits inside the lookback window, in scan order, in both modes: the
50-entry cap truncates these aggregates together with the stored detail
list. -/
theorem aggregates_from_first_50_window (fetchAll : Bool) (cutoff : Int)
    (reposFetch : Except Unit (List Repo)) :
    (analyze_commit_activity fetchAll cutoff reposFetch).active_days
      = dayAgg ((windowCommits cutoff (retrievedAll fetchAll cutoff reposFetch)).take 50) ∧
    (analyze_commit_activity fetchAll cutoff reposFetch).commit_frequency_by_day
      = byDayAgg ((windowCommits cutoff (retrievedAll fetchAll cutoff reposFetch)).take 50) ∧
    (analyze_commit_activity fetchAll cutoff reposFetch).commit_frequency_by_hour
      = byHourAgg ((windowCommits cutoff (retrievedAll fetchAll cutoff reposFetch)).take 50) := by
  obtain ⟨_, h2, h3, h4, _, _⟩ := analyze_AggInv fetchAll cutoff reposFetch
  exact ⟨h2, h3, h4⟩


theorem pyMaxGo_spec : ∀ (xs : List (String × Nat)) (best : String × Nat),
    (∀ x ∈ xs, x.2 ≤ (pyMaxGo best xs).2) ∧ best.2 ≤ (pyMaxGo best xs).2 ∧
    (pyMaxGo best xs = best ∨
      ∃ l1 l2, xs = l1 ++ pyMaxGo best xs :: l2 ∧ best.2 < (pyMaxGo best xs).2 ∧
        ∀ x ∈ l1, x.2 < (pyMaxGo best xs).2)
  | [], best => ⟨by simp, by simp [pyMaxGo], Or.inl rfl⟩
  | x :: xs, best => by
    obtain ⟨ih1, ih2, ih3⟩ := pyMaxGo_spec xs (if x.2 > best.2 then x else best)
    by_cases hx : x.2 > best.2
    · rw [if_pos hx] at ih1 ih2 ih3
      have hgo : pyMaxGo best (x :: xs) = pyMaxGo x xs := by
        simp [pyMaxGo, hx]
      rw [hgo]
      set m := pyMaxGo x xs with hm
      refine ⟨?_, by omega, ?_⟩
      · intro y hy
        rcases List.mem_cons.mp hy with rfl | hy2
        · exact ih2
        · exact ih1 y hy2
      · rcases ih3 with heq | ⟨l1, l2, hdec, hlt, hall⟩
        · right
          refine ⟨[], xs, ?_, by rw [heq]; omega, by simp⟩
          rw [List.nil_append, heq]
        · right
          refine ⟨x :: l1, l2, ?_, by omega, ?_⟩
          · rw [List.cons_append]
            exact congrArg (List.cons x) hdec
          · intro y hy
            rcases List.mem_cons.mp hy with rfl | hy2
            · exact hlt
            · exact hall y hy2
    · rw [if_neg hx] at ih1 ih2 ih3
      have hgo : pyMaxGo best (x :: xs) = pyMaxGo best xs := by
        simp [pyMaxGo, hx]
      rw [hgo]
      set m := pyMaxGo best xs with hm
      refine ⟨?_, ih2, ?_⟩
      · intro y hy
        rcases List.mem_cons.mp hy with rfl | hy2
        · omega
        · exact ih1 y hy2
      · rcases ih3 with heq | ⟨l1, l2, hdec, hlt, hall⟩
        · left; exact heq
        · right
          refine ⟨x :: l1, l2, ?_, hlt, ?_⟩
          · rw [List.cons_append]
            exact congrArg (List.cons x) hdec
          · intro y hy
            rcases List.mem_cons.mp hy with rfl | hy2
            · omega
            · exact hall y hy2

theorem pyMax_spec (l : List (String × Nat)) (h : l ≠ []) :
    ∃ kv, pyMax l = some kv ∧ kv ∈ l ∧ (∀ x ∈ l, x.2 ≤ kv.2) ∧
      ∃ l1 l2, l = l1 ++ kv :: l2 ∧ ∀ x ∈ l1, x.2 < kv.2 := by
  cases l with
  | nil => exact absurd rfl h
  | cons x xs =>
    obtain ⟨g1, g2, g3⟩ := pyMaxGo_spec xs x
    set m := pyMaxGo x xs with hm
    refine ⟨m, rfl, ?_, ?_, ?_⟩
    · rcases g3 with heq | ⟨l1, l2, hdec, _, _⟩
      · rw [heq]; exact List.mem_cons_self x xs
      · have : m ∈ xs := by
          rw [hdec]
          exact List.mem_append.mpr (Or.inr (List.mem_cons_self m l2))
        exact List.mem_cons_of_mem x this
    · intro y hy
      rcases List.mem_cons.mp hy with rfl | hy2
      · exact g2
      · exact g1 y hy2
    · rcases g3 with heq | ⟨l1, l2, hdec, hlt, hall⟩
      · refine ⟨[], xs, ?_, by simp⟩
        rw [List.nil_append, heq]
      · refine ⟨x :: l1, l2, ?_, ?_⟩
        · rw [List.cons_append]
          exact congrArg (List.cons x) hdec
        · intro y hy
          rcases List.mem_cons.mp hy with rfl | hy2
          · exact hlt
          · exact hall y hy2

theorem setKey_append (counts : List (String × Nat)) (k : String) (v : Nat)
    (h : ∀ kv ∈ counts, ¬(kv.1 = k)) : setKey counts k v = counts ++ [(k, v)] := by
  induction counts with
  | nil => rfl
  | cons kv0 rest ih =>
    obtain ⟨k0, v0⟩ := kv0
    have hk0 : ¬(k0 = k) := h (k0, v0) (List.mem_cons_self _ _)
    simp [setKey, hk0, ih (fun kv hkv => h kv (List.mem_cons_of_mem _ hkv))]

theorem processCommit_snd (fetchAll : Bool) (cutoff : Int) (rn : String)
    (s : Activity × Nat) (c : Commit) :
    (processCommit fetchAll cutoff rn s c).2 = s.2 + 1 := by
  unfold processCommit
  dsimp only
  split_ifs <;> rfl

theorem foldlCommits_snd (fetchAll : Bool) (cutoff : Int) (rn : String) :
    ∀ (cs : List Commit) (s : Activity × Nat),
    (cs.foldl (processCommit fetchAll cutoff rn) s).2 = s.2 + cs.length
  | [], s => by simp
  | c :: cs, s => by
    rw [List.foldl_cons, foldlCommits_snd fetchAll cutoff rn cs _, processCommit_snd]
    simp only [List.length_cons]
    omega

/-- The per-repository retrieved-commit counts the scan records, in scan
order. -/
def retrievedCounts (fetchAll : Bool) (cutoff : Int)
    (reposFetch : Except Unit (List Repo)) : List (String × Nat) :=
  (scannedRepos fetchAll reposFetch).filterMap
    (fun r => (fetchCommits fetchAll cutoff r).map (fun cs => (r.name, cs.length)))

theorem foldlRepos_counts (fetchAll : Bool) (cutoff : Int) :
    ∀ (rs : List Repo) (s : Activity × List (String × Nat)),
    (∀ r ∈ rs, ∀ kv ∈ s.2, ¬(kv.1 = r.name)) → ((rs.map (fun r => r.name)).Nodup) →
    (rs.foldl (processRepo fetchAll cutoff) s).2
      = s.2 ++ rs.filterMap
          (fun r => (fetchCommits fetchAll cutoff r).map (fun cs => (r.name, cs.length)))
  | [], s, _, _ => by simp
  | r :: rs, s, hdisj, hnodup => by
    rw [List.foldl_cons]
    have hmap : List.map (fun r => r.name) (r :: rs)
        = r.name :: rs.map (fun r => r.name) := by simp
    rw [hmap] at hnodup
    have hpair := List.nodup_cons.mp hnodup
    have hnotmem : ¬(r.name ∈ rs.map (fun r => r.name)) := hpair.1
    have hnodup2 : (rs.map (fun r => r.name)).Nodup := hpair.2
    cases hf : fetchCommits fetchAll cutoff r with
    | none =>
      have hsnd : (processRepo fetchAll cutoff s r).2 = s.2 := by
        unfold processRepo
        rw [hf]
      have hrec := foldlRepos_counts fetchAll cutoff rs (processRepo fetchAll cutoff s r)
        (by
          intro r2 hr2 kv hkv
          rw [hsnd] at hkv
          exact hdisj r2 (List.mem_cons_of_mem r hr2) kv hkv) hnodup2
      rw [hrec, hsnd]
      rw [show List.filterMap
            (fun r => (fetchCommits fetchAll cutoff r).map (fun cs => (r.name, cs.length)))
            (r :: rs)
          = rs.filterMap
              (fun r => (fetchCommits fetchAll cutoff r).map (fun cs => (r.name, cs.length)))
        from by simp [List.filterMap_cons, hf]]
    | some commits =>
      have hsnd : (processRepo fetchAll cutoff s r).2 = s.2 ++ [(r.name, commits.length)] := by
        unfold processRepo
        rw [hf]
        dsimp only
        rw [foldlCommits_snd]
        rw [setKey_append s.2 r.name (0 + commits.length)
          (fun kv hkv => hdisj r (List.mem_cons_self r rs) kv hkv)]
        simp
      have hrec := foldlRepos_counts fetchAll cutoff rs (processRepo fetchAll cutoff s r)
        (by
          intro r2 hr2 kv hkv
          rw [hsnd] at hkv
          rcases List.mem_append.mp hkv with hkv1 | hkv2
          · exact hdisj r2 (List.mem_cons_of_mem r hr2) kv hkv1
          · have heq2 : kv = (r.name, commits.length) := by simpa using hkv2
            rw [heq2]
            intro hcontra
            apply hnotmem
            have hmem : r2.name ∈ rs.map (fun r => r.name) :=
              List.mem_map_of_mem (fun r => r.name) hr2
            simpa [← hcontra] using hmem) hnodup2
      rw [hrec, hsnd]
      rw [show List.filterMap
            (fun r => (fetchCommits fetchAll cutoff r).map (fun cs => (r.name, cs.length)))
            (r :: rs)
          = (r.name, commits.length)
              :: rs.filterMap
                (fun r => (fetchCommits fetchAll cutoff r).map (fun cs => (r.name, cs.length)))
        from by simp [List.filterMap_cons, hf]]
      simp



/-- A scanned repository on which every strategy of the windowed chain
raises. -/
def deadRepo : Repo :=
  { name := "r0", fork := false, qAuthorSince := .error (), qSince := .error (),
    qPlain := .error (), qAuthorAll := .error (), qPlainAll := .error () }

/-- C8 fails as stated: a single scanned repository whose whole strategy
chain raises is counted in repositories_analyzed but never enters
repo_commit_counts, so most_active_repo stays none although at least one
repository was scanned. -/
theorem most_active_repo_counterexample :
    (analyze_commit_activity false 0 (.ok [deadRepo])).repositories_analyzed = 1 ∧
    (analyze_commit_activity false 0 (.ok [deadRepo])).most_active_repo = none :=
  ⟨rfl, rfl⟩

/-- C8 amended: when the scanned repositories have distinct names and at
least one of them completes retrieval (possibly with an empty list),
most_active_repo is the name of the first repository, in scan order,
whose retrieved-commit count is maximal; repositories whose strategy
chain raised entirely record no count. -/
theorem most_active_repo_first_max (fetchAll : Bool) (cutoff : Int)
    (reposFetch : Except Unit (List Repo))
    (hnodup : ((scannedRepos fetchAll reposFetch).map (fun r => r.name)).Nodup)
    (hne : retrievedCounts fetchAll cutoff reposFetch ≠ []) :
    ∃ kv, pyMax (retrievedCounts fetchAll cutoff reposFetch) = some kv ∧
      (analyze_commit_activity fetchAll cutoff reposFetch).most_active_repo = some kv.1 ∧
      kv ∈ retrievedCounts fetchAll cutoff reposFetch ∧
      (∀ x ∈ retrievedCounts fetchAll cutoff reposFetch, x.2 ≤ kv.2) ∧
      ∃ l1 l2, retrievedCounts fetchAll cutoff reposFetch = l1 ++ kv :: l2 ∧
        ∀ x ∈ l1, x.2 < kv.2 := by
  obtain ⟨kv, hpy, hmem, hmax, hdec⟩ := pyMax_spec _ hne
  refine ⟨kv, hpy, ?_, hmem, hmax, hdec⟩
  cases reposFetch with
  | error e =>
    exact absurd (show retrievedCounts fetchAll cutoff (.error e) = [] from rfl) hne
  | ok repos =>
    by_cases hemp : (repos.filter (fun r => !r.fork)).isEmpty
    · have hnil : repos.filter (fun r => !r.fork) = [] := List.isEmpty_iff.mp hemp
      have hzero : retrievedCounts fetchAll cutoff (.ok repos) = [] := by
        show (((repos.filter (fun r => !r.fork)).take
            (if fetchAll then 25 else 15)).filterMap
          (fun r => (fetchCommits fetchAll cutoff r).map (fun cs => (r.name, cs.length)))) = []
        rw [hnil]
        simp
      exact absurd hzero hne
    · have hrc : retrievedCounts fetchAll cutoff (.ok repos)
          = ((repos.filter (fun r => !r.fork)).take
              (if fetchAll then 25 else 15)).filterMap
            (fun r => (fetchCommits fetchAll cutoff r).map (fun cs => (r.name, cs.length))) :=
        rfl
      have hscan : scannedRepos fetchAll (.ok repos)
          = (repos.filter (fun r => !r.fork)).take (if fetchAll then 25 else 15) := rfl
      have hcounts := foldlRepos_counts fetchAll cutoff
        ((repos.filter (fun r => !r.fork)).take (if fetchAll then 25 else 15))
        ({ emptyActivity fetchAll with
            total_repositories := (repos.filter (fun r => !r.fork)).length }, [])
        (by intro r hr kv2 hkv2; simp at hkv2)
        (by rw [← hscan]; exact hnodup)
      rw [List.nil_append] at hcounts
      have hfm := finalize_most_active
        (((repos.filter (fun r => !r.fork)).take (if fetchAll then 25 else 15)).foldl
          (processRepo fetchAll cutoff)
          ({ emptyActivity fetchAll with
              total_repositories := (repos.filter (fun r => !r.fork)).length }, []))
      rw [hcounts, ← hrc, hpy] at hfm
      unfold analyze_commit_activity
      simp only [hemp, if_false]
      exact hfm



def tieCommit : Commit :=
  { sha := "t", message := "m", date := { stamp := 0, dayKey := "d", hour := 1 },
    authorIsUser := true, additions := 0, deletions := 0, total := 0 }

def repoA : Repo :=
  { name := "ra", fork := false, qAuthorSince := .ok [tieCommit, tieCommit],
    qSince := .error (), qPlain := .error (), qAuthorAll := .error (), qPlainAll := .error () }

def repoB : Repo :=
  { repoA with name := "rb" }

def repoC : Repo :=
  { repoA with name := "rc", qAuthorSince := .ok [tieCommit] }

theorem most_active_repo_first_max_witness :
    ∃ kv, pyMax (retrievedCounts false 0 (.ok [repoA, repoB, repoC])) = some kv ∧
      (analyze_commit_activity false 0 (.ok [repoA, repoB, repoC])).most_active_repo
        = some kv.1 ∧
      kv ∈ retrievedCounts false 0 (.ok [repoA, repoB, repoC]) ∧
      (∀ x ∈ retrievedCounts false 0 (.ok [repoA, repoB, repoC]), x.2 ≤ kv.2) ∧
      ∃ l1 l2, retrievedCounts false 0 (.ok [repoA, repoB, repoC]) = l1 ++ kv :: l2 ∧
        ∀ x ∈ l1, x.2 < kv.2 :=
  most_active_repo_first_max false 0 (.ok [repoA, repoB, repoC]) (by decide) (by decide)

end GithubMiner

namespace GithubMiner

/-! ### Entity collector: collect_single_user (miner.py lines 530-624)

The remote API is abstracted as the outcome of each fetch the method
performs.  The stop event is a time-indexed flag; the method reads it
exactly once, at entry (line 533), before the identity fetch.  Section
payloads are Json values, as the record is ultimately serialized. -/

/-- The attribute snapshot read from the user object after get_user
succeeds; a failure while reading any of these is part of the identity
fetch failing. -/
structure BasicUser where
  followers : Json
  following : Json
  public_repos : Json
  created_at : Json
  updated_at : Json

structure UserApi where
  identity : Except Unit BasicUser
  extended : Except Unit Json
  patterns : Except Unit Json
  commitActivity : Except Unit Json
  social : Except Unit Json
  portfolio : Except Unit Json
  quality : Except Unit Json

/-- Python dict assignment for Json-valued dicts, insertion order kept. -/
def setJson : List (String × Json) → String → Json → List (String × Json)
  | [], k, v => [(k, v)]
  | (k0, v0) :: rest, k, v =>
    if k0 = k then (k0, v) :: rest else (k0, v0) :: setJson rest k v

def getJson : List (String × Json) → String → Option Json
  | [], _ => none
  | (k0, v) :: rest, k => if k0 = k then some v else getJson rest k

/-- The zero commit-activity dictionary substituted when the
commit-activity section raises (miner.py lines 577-590). -/
def defaultCommitActivity (fetchAll : Bool) : Json :=
  Json.obj [
    ("total_commits".toList, Json.num 0),
    ("total_recent_commits".toList, Json.num 0),
    ("active_days".toList, Json.arr []),
    ("commit_frequency_by_day".toList, Json.obj []),
    ("commit_frequency_by_hour".toList, Json.obj []),
    ("recent_commits".toList, Json.arr []),
    ("most_active_repo".toList, Json.null),
    ("commit_streaks".toList, Json.arr []),
    ("avg_commits_per_day".toList, Json.num 0),
    ("repositories_analyzed".toList, Json.num 0),
    ("total_repositories".toList, Json.num 0),
    ("fetch_mode".toList, Json.str (if fetchAll then "all".toList else "recent".toList))]

/-- try: fetch; except: default. -/
def exceptOrDefault (e : Except Unit Json) (dflt : Json) : Json :=
  match e with
  | .ok j => j
  | .error _ => dflt

def collect_single_user (stop : Nat → Bool) (fetchAll : Bool) (username : String)
    (api : UserApi) : Option (List (String × Json)) :=
  if stop 0 then none
  else
    match api.identity with
    | .error _ => none
    | .ok u =>
      let d : List (String × Json) :=
        [("username", Json.str username.toList),
         ("followers", u.followers),
         ("following", u.following),
         ("public_repos", u.public_repos),
         ("created_at", u.created_at),
         ("updated_at", u.updated_at)]
      let d := setJson d "extended_user_data" (exceptOrDefault api.extended (Json.obj []))
      let d := setJson d "development_patterns" (exceptOrDefault api.patterns (Json.obj []))
      let d := setJson d "commit_activity"
        (exceptOrDefault api.commitActivity (defaultCommitActivity fetchAll))
      let d := setJson d "social_network" (exceptOrDefault api.social (Json.obj []))
      let d := setJson d "repository_portfolio" (exceptOrDefault api.portfolio (Json.obj []))
      let d := setJson d "contribution_quality" (exceptOrDefault api.quality (Json.obj []))
      some d

/-- C1: for every username whose identity fetch succeeds,
collect_single_user returns a record in which all six enrichment section
keys (extended_user_data, development_patterns, commit_activity,
social_network, repository_portfolio, contribution_quality) are present,
each holding the fetched data, or that section's documented empty/zero
default when the section's fetch raised; for every username whose
identity fetch fails, collect_single_user returns None. -/
theorem collect_single_user_sections (stop : Nat → Bool) (fetchAll : Bool)
    (username : String) (api : UserApi) (hstop : stop 0 = false) :
    (∀ u, api.identity = .ok u →
      ∃ d, collect_single_user stop fetchAll username api = some d ∧
        getJson d "extended_user_data" = some (exceptOrDefault api.extended (Json.obj [])) ∧
        getJson d "development_patterns" = some (exceptOrDefault api.patterns (Json.obj [])) ∧
        getJson d "commit_activity"
          = some (exceptOrDefault api.commitActivity (defaultCommitActivity fetchAll)) ∧
        getJson d "social_network" = some (exceptOrDefault api.social (Json.obj [])) ∧
        getJson d "repository_portfolio"
          = some (exceptOrDefault api.portfolio (Json.obj [])) ∧
        getJson d "contribution_quality"
          = some (exceptOrDefault api.quality (Json.obj []))) ∧
    (api.identity = .error () → collect_single_user stop fetchAll username api = none) := by
  constructor
  · intro u hid
    refine ⟨[("username", Json.str username.toList),
         ("followers", u.followers),
         ("following", u.following),
         ("public_repos", u.public_repos),
         ("created_at", u.created_at),
         ("updated_at", u.updated_at),
         ("extended_user_data", exceptOrDefault api.extended (Json.obj [])),
         ("development_patterns", exceptOrDefault api.patterns (Json.obj [])),
         ("commit_activity", exceptOrDefault api.commitActivity (defaultCommitActivity fetchAll)),
         ("social_network", exceptOrDefault api.social (Json.obj [])),
         ("repository_portfolio", exceptOrDefault api.portfolio (Json.obj [])),
         ("contribution_quality", exceptOrDefault api.quality (Json.obj []))],
       ?_, ?_, ?_, ?_, ?_, ?_, ?_⟩ <;>
      simp [collect_single_user, hstop, hid, setJson, getJson]
  · intro hid
    simp [collect_single_user, hstop, hid]

end GithubMiner

namespace GithubMiner

def basicW : BasicUser :=
  { followers := Json.num 10, following := Json.num 2, public_repos := Json.num 3,
    created_at := Json.str "2020".toList, updated_at := Json.str "2021".toList }

def apiW : UserApi :=
  { identity := .ok basicW,
    extended := .ok (Json.obj [("email".toList, Json.null)]),
    patterns := .error (),
    commitActivity := .error (),
    social := .ok (Json.obj []),
    portfolio := .ok (Json.obj []),
    quality := .error () }

theorem collect_single_user_sections_witness :
    ∃ d, collect_single_user (fun _ => false) false "alice" apiW = some d ∧
      getJson d "extended_user_data" = some (exceptOrDefault apiW.extended (Json.obj [])) ∧
      getJson d "development_patterns" = some (exceptOrDefault apiW.patterns (Json.obj [])) ∧
      getJson d "commit_activity"
        = some (exceptOrDefault apiW.commitActivity (defaultCommitActivity false)) ∧
      getJson d "social_network" = some (exceptOrDefault apiW.social (Json.obj [])) ∧
      getJson d "repository_portfolio" = some (exceptOrDefault apiW.portfolio (Json.obj [])) ∧
      getJson d "contribution_quality" = some (exceptOrDefault apiW.quality (Json.obj [])) :=
  (collect_single_user_sections (fun _ => false) false "alice" apiW rfl).1 basicW rfl

/-- The cancellation flag becoming set right after the identity fetch:
unset at the single entry check, set at every later instant. -/
def stopLater : Nat → Bool := fun t => decide (1 ≤ t)

/-- C4 counterexample: the cancellation flag is unset at instant 0 (the
single check, at entry) and set at every instant from 1 on — that is, it
becomes set right after the identity fetch succeeds, before any
enrichment section is attempted — yet the invocation returns a completed
record instead of None: the pipeline does not stop at a section boundary
and the accumulated record is surfaced as a success. -/
theorem cancellation_counterexample :
    stopLater 0 = false ∧ stopLater 1 = true ∧
    (∃ d, collect_single_user stopLater false "alice" apiW = some d) := by
  refine ⟨rfl, rfl, ⟨_, rfl⟩⟩

/-- C4 amended: the cancellation flag is consulted exactly once, at
entry, before the identity fetch; once that check passes and the identity
fetch succeeds, the invocation attempts every enrichment section and
returns the completed record, and the result does not depend on the
flag's values after instant 0 — cancellation during a user's collection
neither aborts it nor discards its record. -/
theorem cancellation_after_identity_continues (stop : Nat → Bool) (fetchAll : Bool)
    (username : String) (api : UserApi) (h0 : stop 0 = false) (u : BasicUser)
    (hid : api.identity = .ok u) :
    (∃ d, collect_single_user stop fetchAll username api = some d) ∧
    (∀ stop2 : Nat → Bool, stop2 0 = false →
      collect_single_user stop2 fetchAll username api
        = collect_single_user stop fetchAll username api) := by
  constructor
  · refine ⟨[("username", Json.str username.toList),
       ("followers", u.followers), ("following", u.following),
       ("public_repos", u.public_repos), ("created_at", u.created_at),
       ("updated_at", u.updated_at),
       ("extended_user_data", exceptOrDefault api.extended (Json.obj [])),
       ("development_patterns", exceptOrDefault api.patterns (Json.obj [])),
       ("commit_activity", exceptOrDefault api.commitActivity (defaultCommitActivity fetchAll)),
       ("social_network", exceptOrDefault api.social (Json.obj [])),
       ("repository_portfolio", exceptOrDefault api.portfolio (Json.obj [])),
       ("contribution_quality", exceptOrDefault api.quality (Json.obj []))], ?_⟩
    simp [collect_single_user, h0, hid, setJson]
  · intro stop2 h2
    simp [collect_single_user, h0, h2]

theorem cancellation_after_identity_continues_witness :
    (∃ d, collect_single_user stopLater false "alice" apiW = some d) ∧
    (∀ stop2 : Nat → Bool, stop2 0 = false →
      collect_single_user stop2 false "alice" apiW
        = collect_single_user stopLater false "alice" apiW) :=
  cancellation_after_identity_continues stopLater false "alice" apiW rfl basicW rfl

/-! ### Orchestrator validation: parallel_data_collection
(miner.py lines 466-469) -/

/-- Python falsy test on the optional filename argument: None or the
empty string. -/
def falsyName : Option String → Bool
  | none => true
  | some s => s.isEmpty

structure RunOutcome where
  results : List (List (String × Json))
  successful_count : Nat
  failed_count : Nat

/-- parallel_data_collection: the eager validation raise, then the worker
pool.  Completion order is unconstrained by the code; it is modelled as
submission order, on which no claim here depends.  The first component
lists the tasks submitted to the executor. -/
def parallel_data_collection (save_immediately : Bool) (filename : Option String)
    (usernames : List String)
    (collect : String → Option (List (String × Json))) :
    List String × Except Unit RunOutcome :=
  if save_immediately && falsyName filename then ([], .error ())
  else
    (usernames,
     .ok { results := usernames.filterMap collect,
           successful_count := (usernames.filterMap collect).length,
           failed_count := usernames.length - (usernames.filterMap collect).length })

/-- C7: when immediate saving is requested and no destination basename
is supplied (None or the empty string), parallel_data_collection raises a
configuration error before any task is dispatched — the submitted-task
list is empty; with a basename supplied or immediate saving off, no
validation error is raised and every username is submitted to the
worker pool. -/
theorem parallel_validation (save_immediately : Bool) (filename : Option String)
    (usernames : List String) (collect : String → Option (List (String × Json))) :
    (save_immediately = true → falsyName filename = true →
      parallel_data_collection save_immediately filename usernames collect
        = ([], .error ())) ∧
    ((save_immediately && falsyName filename) = false →
      ∃ out, parallel_data_collection save_immediately filename usernames collect
        = (usernames, .ok out)) := by
  constructor
  · intro h1 h2
    simp [parallel_data_collection, h1, h2]
  · intro h
    refine ⟨{ results := usernames.filterMap collect,
              successful_count := (usernames.filterMap collect).length,
              failed_count := usernames.length - (usernames.filterMap collect).length }, ?_⟩
    simp [parallel_data_collection, h]

theorem parallel_validation_witness :
    parallel_data_collection true none ["alice"] (fun _ => none) = ([], .error ()) ∧
    ∃ out, parallel_data_collection true (some "t") ["alice"] (fun _ => none)
      = (["alice"], .ok out) :=
  ⟨(parallel_validation true none ["alice"] (fun _ => none)).1 rfl rfl,
   (parallel_validation true (some "t") ["alice"] (fun _ => none)).2 rfl⟩

/-! ### Concurrent appends to one sink file

The workers of parallel_data_collection call append_single_user_to_export
inside the pool with no lock anywhere on the path (miner.py lines
471-524, 838-859, 861-907), so any interleaving of the atomic file
operations of two concurrent appends is possible.  One append on an
existing file decomposes into three atomic steps: read the size, read the
tail from size - 2, write the payload (at size - 2 when the tail held a
bracket, else at the position where the tail read ended). -/

structure WorkerState where
  pc : Nat
  size : Nat
  sawBracket : Bool
  endPos : Nat

def appendPayload (rec : List Char) : List Char := ',' :: '\n' :: (rec ++ '\n' :: [']'])

/-- Overwrite data at a byte position, extending the file as needed. -/
def writeAt (file : List Char) (pos : Nat) (data : List Char) : List Char :=
  file.take pos ++ data ++ file.drop (pos + data.length)

def stepWorker (rec : List Char) (w : WorkerState) (file : List Char) :
    WorkerState × List Char :=
  match w.pc with
  | 0 => ({ w with pc := 1, size := file.length }, file)
  | 1 =>
    if w.size > 2 then
      let tail := file.drop (w.size - 2)
      ({ w with pc := 2, sawBracket := tail.contains ']', endPos := file.length }, file)
    else ({ w with pc := 3 }, file)
  | 2 =>
    if w.sawBracket then
      ({ w with pc := 3 }, writeAt file (w.size - 2) (appendPayload rec))
    else
      ({ w with pc := 3 }, writeAt file w.endPos (appendPayload rec))
  | _ => (w, file)

structure SysState where
  file : List Char
  w1 : WorkerState
  w2 : WorkerState

/-- Run two workers under a schedule; true steps the first worker.  All
schedules are admissible because the code takes no lock. -/
def runSched (rec1 rec2 : List Char) : List Bool → SysState → SysState
  | [], s => s
  | b :: rest, s =>
    if b then
      let p := stepWorker rec1 s.w1 s.file
      runSched rec1 rec2 rest { file := p.2, w1 := p.1, w2 := s.w2 }
    else
      let p := stepWorker rec2 s.w2 s.file
      runSched rec1 rec2 rest { file := p.2, w1 := s.w1, w2 := p.1 }

/-- Both workers are mid-append at once. -/
def bothInside (s : SysState) : Bool :=
  (decide (0 < s.w1.pc) && decide (s.w1.pc < 3)) &&
  (decide (0 < s.w2.pc) && decide (s.w2.pc < 3))

def initWorker : WorkerState := { pc := 0, size := 0, sawBracket := false, endPos := 0 }

def initSysState : SysState :=
  { file := jsonArrayFile [serialize Json.null], w1 := initWorker, w2 := initWorker }

/-- C9: appends to a shared sink file are not mutually exclusive — the
code takes no lock on the append path, so every interleaving of the
atomic file operations of two concurrent appends is admissible: a
two-step schedule leaves both workers mid-append at the same time, and an
interleaved schedule corrupts the file so that it no longer parses as a
JSON array, whereas a serialized schedule yields the correct three-record
array — mutual exclusion is exactly what the interleaved run violates. -/
theorem append_not_mutually_exclusive :
    bothInside (runSched (serialize (Json.str ['a'])) (serialize (Json.str ['b', 'b']))
      [true, false] initSysState) = true ∧
    parseJsonArrayFile (runSched (serialize (Json.str ['a'])) (serialize (Json.str ['b', 'b']))
      [true, false, false, false, true, true] initSysState).file = none ∧
    parseJsonArrayFile (runSched (serialize (Json.str ['a'])) (serialize (Json.str ['b', 'b']))
      [true, true, true, false, false, false] initSysState).file
      = some [Json.null, Json.str ['a'], Json.str ['b', 'b']] := by
  refine ⟨by rfl, by rfl, by rfl⟩

end GithubMiner
